import Mathlib

/-!
Shallow embedding of the `insertster` phylogenetic-placement core
(`insertster/_core.py` and `insertster/_measures.py`).

Trees are rooted, ordered, multi-way trees (skbio `TreeNode`).  We encode
them in child/sibling form: `Forest.node d c s` is a node with auxiliary
data `d`, whose children are the roots of the forest `c`, followed by its
right siblings, the roots of `s`.  A tree in the Python sense is a forest
whose root has no sibling (`s = .nil`).

Python dicts become association lists (insertion-ordered, which matches
dict iteration order); `defaultdict(list)` access is modelled by `dext`
(append to an existing key, or create it at the end).  Real numbers
(Python floats) become `Rat`.  Fallible operations (the skbio
`TreeNode.find` raising `MissingNodeError`, dict `KeyError`) become
`Option`/`Except`.
-/

namespace Insertster

/-- The per-node mutable attribute bag that the pipeline writes:
`name`/`length` come from the tree itself, `hits`, `scores`, `ntips`,
`min_tip_dist` and `root_dist` are set by the pipeline stages.  Python
attributes that a stage has not yet set are modelled by the defaults. -/
structure NodeData where
  name : Option String := none
  length : Rat := 0
  hits : List (String × List Rat) := []
  scores : List (String × Rat) := []
  ntips : Nat := 0
  min_tip_dist : Nat := 0
  root_dist : Nat := 0
deriving Repr, DecidableEq

/-- Rooted ordered forests in child/sibling form: `node d c s` has data
`d`, children forest `c` and right-sibling forest `s`. -/
inductive Forest where
  | nil : Forest
  | node : NodeData → Forest → Forest → Forest
deriving Repr, DecidableEq

namespace Forest

/-- Whether the forest is empty; `node d c s` with `c.isNil` is a tip. -/
def isNil : Forest → Bool
  | .nil => true
  | .node _ _ _ => false

end Forest

/-- Dict read with default `[]`, as `hits[q]` reads of a
`defaultdict(list)` that do not create the key. -/
def getQ (m : List (String × List Rat)) (q : String) : List Rat :=
  (m.lookup q).getD []

/-- Python `defaultdict(list)` update: `m[k].extend(v)` (or `.append`, with `v`
a singleton).  If `k` is present its value is extended in place; else the
key is created at the end (dict insertion order). -/
def dext (m : List (String × List Rat)) (k : String) (v : List Rat) :
    List (String × List Rat) :=
  if (m.lookup k).isSome then
    m.map (fun p => if p.1 = k then (p.1, p.2 ++ v) else p)
  else m ++ [(k, v)]

/-- A single search hit record, with fields `subject` and `seq_score`. -/
structure Hit where
  subject : String
  seq_score : Rat
deriving Repr, DecidableEq

namespace Forest

/-- First phase of `decorate`: `for node in tree.traverse(): node.hits =
defaultdict(list)`. -/
def clearHits : Forest → Forest
  | .nil => .nil
  | .node d c s => .node { d with hits := [] } c.clearHits s.clearHits

/-- Apply `f` to the data of the first tip (childless node), in postorder,
whose name is `nm`; `none` when no tip is named `nm`.  Models the tip half
of the skbio name cache used by `TreeNode.find`. -/
def updTip : Forest → String → (NodeData → NodeData) → Option Forest
  | .nil, _, _ => none
  | .node d c s, nm, f =>
    match c.updTip nm f with
    | some c' => some (.node d c' s)
    | none =>
      if c.isNil ∧ d.name = some nm then some (.node (f d) c s)
      else
        match s.updTip nm f with
        | some s' => some (.node d c s')
        | none => none

/-- Apply `f` to the data of the first non-tip, in postorder, whose name
is `nm`; the non-tip half of the skbio name cache. -/
def updNonTip : Forest → String → (NodeData → NodeData) → Option Forest
  | .nil, _, _ => none
  | .node d c s, nm, f =>
    match c.updNonTip nm f with
    | some c' => some (.node d c' s)
    | none =>
      if ¬c.isNil ∧ d.name = some nm then some (.node (f d) c s)
      else
        match s.updNonTip nm f with
        | some s' => some (.node d c s')
        | none => none

/-- skbio `TreeNode.find` combined with the in-place attribute update it
enables: tips are searched first, then non-tips; `none` models
`MissingNodeError` (no node of the tree is named `nm`). -/
def findAndUpd (t : Forest) (nm : String) (f : NodeData → NodeData) :
    Option Forest :=
  match t.updTip nm f with
  | some t' => some t'
  | none => t.updNonTip nm f

end Forest

/-- The update `node.hits[name].append(seq_score)` of `decorate`. -/
def addHit (q : String) (sc : Rat) (d : NodeData) : NodeData :=
  { d with hits := dext d.hits q [sc] }

/-- Inner loop of `decorate` for one `(name, details)` pair: for each
detail, `tree.find(subject)` (error when absent — the lookup
happens before the threshold test), then append the score when
`seq_score >= threshold`. -/
def decorateOne (thr : Rat) (q : String) :
    Forest → List Hit → Except String Forest
  | t, [] => .ok t
  | t, h :: rest =>
    match t.findAndUpd h.subject
        (fun d => if thr ≤ h.seq_score then addHit q h.seq_score d else d) with
    | none => .error h.subject
    | some t' => decorateOne thr q t' rest

/-- Outer loop of `decorate` over the `(name, details)` stream. -/
def decorateAll (thr : Rat) :
    Forest → List (String × List Hit) → Except String Forest
  | t, [] => .ok t
  | t, (q, ds) :: rest =>
    match decorateOne thr q t ds with
    | .error e => .error e
    | .ok t' => decorateAll thr t' rest

/-- Python `decorate(tree, hits, threshold)`: reset the `hits` of every node, then map
each passing hit onto the node named by its subject.  The Python default
`threshold=None` reads as `0.0`. -/
def decorate (t : Forest) (hits : List (String × List Hit)) (thr : Rat) :
    Except String Forest :=
  decorateAll thr t.clearHits hits

namespace Forest

/-- One child's contribution in `propagate`: `for name, identities in
child.hits.items(): node.hits[name].extend(identities)`, folded over a
forest of (already-propagated) children left to right. -/
def extendChildren (m : List (String × List Rat)) :
    Forest → List (String × List Rat)
  | .nil => m
  | .node cd _ cs =>
    extendChildren (cd.hits.foldl (fun acc p => dext acc p.1 p.2) m) cs

/-- Python `propagate(tree)`: postorder; tips are skipped; each internal node
extends its own `hits` with the (final) `hits` of every child.  The trailing
`np.asarray` conversion is the identity in this model. -/
def propagate : Forest → Forest
  | .nil => .nil
  | .node d c s =>
    let c' := c.propagate
    let d' := if c.isNil then d else { d with hits := extendChildren d.hits c' }
    .node d' c' s.propagate

/-- Sum of `ntips` over the roots of a forest (the `reduce(add, ...)` over
the children of a node). -/
def sumNtips : Forest → Nat
  | .nil => 0
  | .node d _ s => d.ntips + s.sumNtips

/-- Python `_set_number_of_tips`: postorder; tip → 1; internal → sum of
the `ntips` of the children. -/
def setNtips : Forest → Forest
  | .nil => .nil
  | .node d c s =>
    let c' := c.setNtips
    .node { d with ntips := if c.isNil then 1 else c'.sumNtips } c' s.setNtips

/-- Minimum of `min_tip_dist` over the roots of a (nonempty) forest. -/
def minMtd : Forest → Nat
  | .nil => 0
  | .node d _ .nil => d.min_tip_dist
  | .node d _ (.node e c s) => min d.min_tip_dist (minMtd (.node e c s))

/-- Python `_set_minimum_distance_to_tips`: postorder; tip → 0; internal →
`min(children) + 1`. -/
def setMtd : Forest → Forest
  | .nil => .nil
  | .node d c s =>
    let c' := c.setMtd
    .node { d with min_tip_dist := if c.isNil then 0 else c'.minMtd + 1 }
      c' s.setMtd

/-- Helper for `_set_distance_to_root`: set the `root_dist` of each root to
`r`, and descendants accordingly (`child = parent + 1`). -/
def setRd (r : Nat) : Forest → Forest
  | .nil => .nil
  | .node d c s => .node { d with root_dist := r } (c.setRd (r + 1)) (s.setRd r)

/-- Python `_set_distance_to_root`: the root gets 0; in preorder every other node
gets `parent.root_dist + 1`. -/
def setRootDist (t : Forest) : Forest := t.setRd 0

end Forest

/-- Python `_all_seq_scores(tree)`: the root already aggregates everything, so
read the `hits` of the root (the `np.asarray` copy is the identity here). -/
def allSeqScores : Forest → List (String × List Rat)
  | .nil => []
  | .node d _ _ => d.hits

/-- Python `score_f(global_scores, local_scores, node) -> float`. -/
def ScoreFn := List Rat → List Rat → NodeData → Rat

/-- The dict comprehension in `score`: one `scores` entry per `hits`
entry; `seq_scores[query]` is a plain dict access, so a missing query is a
`KeyError`, modelled as `Except.error`. -/
def computeScores (g : List (String × List Rat)) (f : ScoreFn)
    (d : NodeData) : List (String × List Rat) → Except String (List (String × Rat))
  | [] => .ok []
  | (q, loc) :: rest =>
    match g.lookup q with
    | none => .error q
    | some gs =>
      match computeScores g f d rest with
      | .error e => .error e
      | .ok r => .ok ((q, f gs loc d) :: r)

namespace Forest

/-- The traversal loop of `score`: set `node.scores` on every node. -/
def scoreF (g : List (String × List Rat)) (f : ScoreFn) :
    Forest → Except String Forest
  | .nil => .ok .nil
  | .node d c s =>
    match computeScores g f d d.hits with
    | .error e => .error e
    | .ok scs =>
      match c.scoreF g f with
      | .error e => .error e
      | .ok c' =>
        match s.scoreF g f with
        | .error e => .error e
        | .ok s' => .ok (.node { d with scores := scs } c' s')

end Forest

/-- Python `score(tree, score_f)`: gather the root's aggregated scores, run the
`ntips` pass, then set `scores` on every node. -/
def score (t : Forest) (f : ScoreFn) : Except String Forest :=
  t.setNtips.scoreF (allSeqScores t) f

/-- Python `battle_f(cur_node, existing_node, cur_score, existing_score) -> bool`. -/
def BattleFn := NodeData → NodeData → Rat → Rat → Bool

/-- The default `battle_f` in `best`: the current node wins on a strictly
greater score, or on an equal score with a strictly smaller
`min_tip_dist`. -/
def defaultBattle : BattleFn := fun cur_node existing_node cur_score existing_score =>
  if existing_score < cur_score then true
  else if cur_score = existing_score then
    decide (cur_node.min_tip_dist < existing_node.min_tip_dist)
  else false

/-- A recorded best placement: the address of the node in the tree (child
indices from the root), a snapshot of the data of the node, and the score.
The Python result dict holds a live node reference under the key `node`;
the path plays that role in the functional model. -/
structure BestEntry where
  path : List Nat
  node : NodeData
  score : Rat
deriving Repr, DecidableEq

/-- The assignment `results[query] = ...` in `best`: dict assignment —
overwrite in place when present, else create at the end. -/
def store (res : List (String × BestEntry)) (q : String) (e : BestEntry) :
    List (String × BestEntry) :=
  if (res.lookup q).isSome then
    res.map (fun p => if p.1 = q then (p.1, e) else p)
  else res ++ [(q, e)]

namespace Forest

/-- Postorder traversal paired with the address of each node: `p` is the
parent's path and `i` the index of the first root among its siblings. -/
def postP (p : List Nat) (i : Nat) : Forest → List (List Nat × NodeData)
  | .nil => []
  | .node d c s => c.postP (p ++ [i]) 0 ++ (p ++ [i], d) :: s.postP p (i + 1)

end Forest

/-- The body of the `best` loop for one node: fold the `scores`
entries into the results dict, first occurrence stored, later ones by
`battle_f`. -/
def bestStep (bf : BattleFn) (p : List Nat) (d : NodeData)
    (res : List (String × BestEntry)) : List (String × BestEntry) :=
  d.scores.foldl
    (fun acc qs =>
      match acc.lookup qs.1 with
      | none => store acc qs.1 ⟨p, d, qs.2⟩
      | some e =>
        if bf d e.node qs.2 e.score then store acc qs.1 ⟨p, d, qs.2⟩ else acc)
    res

/-- The tree as `best` leaves it: `best` starts by re-running
`_set_minimum_distance_to_tips` and `_set_distance_to_root` on its input. -/
def bestTree (t : Forest) : Forest := t.setMtd.setRootDist

/-- Python `best(tree, battle_f)`: recompute the two topology metrics, then scan
the tree in postorder, battling per query. -/
def best (t : Forest) (bf : BattleFn) : List (String × BestEntry) :=
  ((bestTree t).postP [] 0).foldl (fun res pd => bestStep bf pd.1 pd.2 res) []

namespace Forest

/-- Append a new root at the end of a forest (the new last child of a
node whose children the forest is). -/
def appendSib (f : Forest) (d : NodeData) : Forest :=
  match f with
  | .nil => .node d .nil .nil
  | .node a c s => .node a c (s.appendSib d)

/-- Look up the node addressed by a path of child indices: `[i]` is the
`i`-th root; `i :: rest` descends into the `i`-th root's children.
Returns the data and the children forest of the node. -/
def seek : Forest → List Nat → Option (NodeData × Forest)
  | _, [] => none
  | .nil, _ :: _ => none
  | .node d c _, [0] => some (d, c)
  | .node _ c _, 0 :: j :: rest => c.seek (j :: rest)
  | .node _ _ s, (n + 1) :: rest => s.seek (n :: rest)

/-- Python `node.append(skbio.TreeNode(...))` at a path: graft `nd` as the last
child of the addressed node.  An unaddressed path changes nothing. -/
def appendAt : Forest → List Nat → NodeData → Forest
  | .nil, _, _ => .nil
  | t, [], _ => t
  | .node a c s, [0], nd => .node a (c.appendSib nd) s
  | .node a c s, 0 :: j :: rest, nd => .node a (c.appendAt (j :: rest) nd) s
  | .node a c s, (n + 1) :: rest, nd => .node a c (s.appendAt (n :: rest) nd)

end Forest

/-- Python `length_f(node, query_name, score) -> float`. -/
def LengthFn := NodeData → String → Rat → Rat

/-- The default `length_f` in `insert`: constant `0.0`. -/
def defaultLength : LengthFn := fun _ _ _ => 0

/-- The node `skbio.TreeNode(name=query, length=length)` grafted by
`insert`: childless, with no pipeline attributes of its own. -/
def newTipData (q : String) (len : Rat) : NodeData :=
  { name := some q, length := len }

/-- Python `insert(scores, threshold, length_f)`: for each result of `best`, when
`score >= threshold`, graft a new tip named by the query as the last child
of the recorded node; otherwise do nothing. -/
def insert (t : Forest) (scores : List (String × BestEntry)) (thr : Rat)
    (lf : LengthFn) : Forest :=
  scores.foldl
    (fun acc qe =>
      if thr ≤ qe.2.score then
        acc.appendAt qe.2.path (newTipData qe.1 (lf qe.2.node qe.1 qe.2.score))
      else acc)
    t

/-- Python `make_f_beta(beta)` from `_measures.py`: precision is
`len(global_) / len(local_)`, recall is `len(local_) / node.ntips`, and
the score is `(1 + beta^2) * p * r / (beta^2 * p + r)`. -/
def make_f_beta (beta : Rat) : ScoreFn :=
  fun g l node =>
    let beta_2 := beta ^ 2
    let coeff := 1 + beta_2
    let p : Rat := (g.length : Rat) / (l.length : Rat)
    let r : Rat := (l.length : Rat) / (node.ntips : Rat)
    coeff * (p * r) / (beta_2 * p + r)

/-- Python `f1_measure = make_f_beta(1.0)`. -/
def f1_measure : ScoreFn := make_f_beta 1

/-- Python `fhalf_measure = make_f_beta(0.5)`. -/
def fhalf_measure : ScoreFn := make_f_beta (1 / 2)

/-- Python `f2_measure = make_f_beta(2.0)`. -/
def f2_measure : ScoreFn := make_f_beta 2



namespace Forest

/-- Number of tips (childless nodes) of a forest. -/
def countTips : Forest → Nat
  | .nil => 0
  | .node _ c s => (if c.isNil then 1 else c.countTips) + s.countTips

/-- Number of nodes of a forest. -/
def size : Forest → Nat
  | .nil => 0
  | .node _ c s => 1 + c.size + s.size

/-- A tree in the Python sense: a forest with exactly one root. -/
def isTree : Forest → Bool
  | .node _ _ .nil => true
  | _ => false

/-- The `ntips` attribute of the root. -/
def rootNtips : Forest → Nat
  | .nil => 0
  | .node d _ _ => d.ntips

/-- The tip-count contract of `_set_number_of_tips`, read off the final
tree: every tip carries `ntips = 1` and every internal node carries the
sum of the `ntips` of its children. -/
def NtipsOK : Forest → Prop
  | .nil => True
  | .node d c s =>
    d.ntips = (if c.isNil then 1 else c.sumNtips) ∧ NtipsOK c ∧ NtipsOK s

/-- The contract of `_set_minimum_distance_to_tips`, read off the final
tree: tips carry 0 and internal nodes carry one more than the minimum
over their children. -/
def MtdOK : Forest → Prop
  | .nil => True
  | .node d c s =>
    d.min_tip_dist = (if c.isNil then 0 else c.minMtd + 1) ∧ MtdOK c ∧ MtdOK s

/-- The contract of `_set_distance_to_root`: each root of the forest
carries `r` and every child carries one more than its parent; for a whole
tree `RdOK 0` says the root carries 0. -/
def RdOK : Nat → Forest → Prop
  | _, .nil => True
  | r, .node d c s => d.root_dist = r ∧ RdOK (r + 1) c ∧ RdOK r s

/-- Forget the `scores` attribute everywhere (to state what `score`
leaves untouched). -/
def eraseScores : Forest → Forest
  | .nil => .nil
  | .node d c s => .node { d with scores := [] } c.eraseScores s.eraseScores

/-- Forget `min_tip_dist` and `root_dist` everywhere (to state what the
topology passes, and hence `best`, leave untouched). -/
def eraseTopo : Forest → Forest
  | .nil => .nil
  | .node d c s =>
    .node { d with min_tip_dist := 0, root_dist := 0 } c.eraseTopo s.eraseTopo

/-- Forget `root_dist` everywhere. -/
def eraseRd : Forest → Forest
  | .nil => .nil
  | .node d c s => .node { d with root_dist := 0 } c.eraseRd s.eraseRd

end Forest

/-- A node record with `ntips` set, used to instantiate theorems. -/
def wNode : NodeData := { ntips := 1 }

/-- The children forest of the two-tip tree `wT`. -/
def wTc : Forest :=
  .node { name := some "a" } .nil (.node { name := some "b" } .nil .nil)

/-- The two-tip tree `(a,b)r`, used to instantiate theorems. -/
def wT : Forest := .node { name := some "r" } wTc .nil

/-- The tree `score` produces on `wT` with the default F1 metric. -/
def wU : Forest :=
  match score wT f1_measure with
  | .ok u => u
  | .error _ => .nil

namespace Forest

/-- Number of roots of a forest (the child count, for the children forest
of a node). -/
def countRoots : Forest → Nat
  | .nil => 0
  | .node _ _ s => 1 + s.countRoots

end Forest

/-- A `best` result entry addressing the root of `wT` with score 5. -/
def wE : BestEntry := ⟨[0], { name := some "r" }, 5⟩


/-- All occurrences of query `q` in the `scores` maps of a postorder
traversal list: address, node data and score, in scan order. -/
def occurrences (q : String) :
    List (List Nat × NodeData) → List (List Nat × NodeData × Rat)
  | [] => []
  | (p, d) :: rest =>
    d.scores.filterMap
        (fun qs => if qs.1 = q then some (p, d, qs.2) else none)
      ++ occurrences q rest

/-- Stated from the spec sentence for the default battle: the current
node replaces the recorded one exactly when its score is strictly
greater, or the scores are exactly tied and its `min_tip_dist` is
strictly smaller. -/
def specReplaces (cur ex : NodeData) (cs es : Rat) : Bool :=
  decide (cs > es) ||
    (decide (cs = es) && decide (cur.min_tip_dist < ex.min_tip_dist))

/-- Fold a battle function over an occurrence list, starting from an
optional already-recorded entry: the first occurrence is stored, every
later one replaces the record exactly when the battle function answers
true (so a full tie keeps the earlier-visited node). -/
def scanOcc (bf : BattleFn) (acc : Option BestEntry)
    (l : List (List Nat × NodeData × Rat)) : Option BestEntry :=
  l.foldl
    (fun a x =>
      match a with
      | none => some ⟨x.1, x.2.1, x.2.2⟩
      | some e =>
        if bf x.2.1 e.node x.2.2 e.score then some ⟨x.1, x.2.1, x.2.2⟩
        else some e)
    acc

/-- Stated from the spec sentences for `best` with the default battle:
scan the postorder occurrence list of the query, keeping the first
occurrence and replacing it exactly under `specReplaces`. -/
def specScan (q : String) (l : List (List Nat × NodeData)) :
    Option BestEntry :=
  scanOcc specReplaces none (occurrences q l)


namespace Forest

/-- Whether some tip (childless node) of the forest is named `nm`. -/
def hasTip : Forest → String → Bool
  | .nil, _ => false
  | .node d c s, nm =>
    (c.isNil && d.name == some nm) || c.hasTip nm || s.hasTip nm

/-- Whether some non-tip of the forest is named `nm`. -/
def hasNonTip : Forest → String → Bool
  | .nil, _ => false
  | .node d c s, nm =>
    (!c.isNil && d.name == some nm) || c.hasNonTip nm || s.hasNonTip nm

/-- Whether any node of the forest is named `nm`; `tree.find(nm)` fails
exactly when this is false. -/
def hasNode (t : Forest) (nm : String) : Bool :=
  t.hasTip nm || t.hasNonTip nm

/-- Forget everything except names and structure (what `decorate` can
never change). -/
def shapeNames : Forest → Forest
  | .nil => .nil
  | .node d c s => .node { name := d.name } c.shapeNames s.shapeNames

/-- Data of the first tip, in postorder, named `nm` — the tip
`tree.find(nm)` returns when one exists. -/
def tipData? : Forest → String → Option NodeData
  | .nil, _ => none
  | .node d c s, nm =>
    match c.tipData? nm with
    | some d2 => some d2
    | none => if c.isNil ∧ d.name = some nm then some d else s.tipData? nm

/-- Every internal node of the forest has an empty `hits` mapping. -/
def InternalHitsEmpty : Forest → Prop
  | .nil => True
  | .node d c s =>
    (c.isNil = true ∨ d.hits = []) ∧ InternalHitsEmpty c ∧ InternalHitsEmpty s

/-- Every node of the forest has distinct query keys in `hits` (Python
dicts cannot repeat a key). -/
def NDHits : Forest → Prop
  | .nil => True
  | .node d c s => (d.hits.map Prod.fst).Nodup ∧ NDHits c ∧ NDHits s

/-- Whether the root of the forest is a tip. -/
def rootIsTip : Forest → Bool
  | .nil => false
  | .node _ c _ => c.isNil

end Forest

/-- The hit stream flattened to `(query, hit)` pairs in input order. -/
def flatHits (hits : List (String × List Hit)) : List (String × Hit) :=
  hits.flatMap (fun p => p.2.map (fun h => (p.1, h)))

/-- The scores a flat hit-pair list contributes to `hits[q]` of the tip
named `nm` under threshold `thr`: subjects matching `nm`, queries
matching `q`, scores at or above `thr`, in input order. -/
def expHits (l : List (String × Hit)) (thr : Rat) (nm q : String) :
    List Rat :=
  (l.filter (fun qh =>
      qh.1 == q && qh.2.subject == nm && decide (thr ≤ qh.2.seq_score))).map
    (fun qh => qh.2.seq_score)

/-- What `decorate(tree, hits, thr)` leaves in `hits[q]` of the tip named
`nm`. -/
def expectedTip (hits : List (String × List Hit)) (thr : Rat)
    (nm q : String) : List Rat :=
  expHits (flatHits hits) thr nm q

/-- The loops of `decorate` over the flattened `(query, hit)` stream;
equal to `decorateAll` (proved below), and easier to reason about one
hit at a time. -/
def decorateFlat (thr : Rat) :
    Forest → List (String × Hit) → Except String Forest
  | t, [] => .ok t
  | t, (q, h) :: rest =>
    match t.findAndUpd h.subject
        (fun d => if thr ≤ h.seq_score then addHit q h.seq_score d else d) with
    | none => .error h.subject
    | some t2 => decorateFlat thr t2 rest

/-- A one-tip tree named `a`. -/
def tA : Forest := .node { name := some "a" } .nil .nil

/-- One hit whose subject names no node at all and whose score is below
any positive threshold. -/
def hitsBelow : List (String × List Hit) := [("q", [⟨"zzz", 0⟩])]

/-- The two-tip tree `(a,b)c` with a named internal root. -/
def tC : Forest :=
  .node { name := some "c" }
    (.node { name := some "a" } .nil (.node { name := some "b" } .nil .nil))
    .nil

/-- One passing hit whose subject names the internal root of `tC`. -/
def hitsInternal : List (String × List Hit) := [("q", [⟨"c", 5⟩])]

/-- The tree `decorate` produces on `tC` with `hitsInternal`. -/
def uC : Forest :=
  match decorate tC hitsInternal 0 with
  | .ok u => u
  | .error _ => .nil

/-- A hit stream against the tips of `wT`: one passing hit on tip `a`,
one below-threshold hit on tip `b`. -/
def wHits : List (String × List Hit) := [("q1", [⟨"a", 5⟩, ⟨"b", 1⟩])]


namespace Forest

/-- Concatenation of `hits[q]` over the roots of a forest (what a parent
collects from its children in `propagate`). -/
def rootsCat (q : String) : Forest → List Rat
  | .nil => []
  | .node d _ s => getQ d.hits q ++ rootsCat q s

/-- Concatenation of `hits[q]` over the tips of a forest, left to
right. -/
def tipsCat (q : String) : Forest → List Rat
  | .nil => []
  | .node d c s =>
    (if c.isNil then getQ d.hits q else tipsCat q c) ++ tipsCat q s

/-- Post-propagation shape: each internal node carries exactly the
concatenation of the `hits[q]` of its children. -/
def SumOK (q : String) : Forest → Prop
  | .nil => True
  | .node d c s =>
    (c.isNil = true ∨ getQ d.hits q = rootsCat q c) ∧ SumOK q c ∧ SumOK q s

/-- The aggregation invariant of the spec: every node carries, as a
multiset, the union of `hits[q]` over its descendant tips (a tip being
its own descendant tip). -/
def AggOK (q : String) : Forest → Prop
  | .nil => True
  | .node d c s =>
    (Multiset.ofList (getQ d.hits q) =
      if c.isNil then Multiset.ofList (getQ d.hits q)
      else Multiset.ofList (tipsCat q c)) ∧ AggOK q c ∧ AggOK q s

end Forest

/-- The tree `decorate` produces on `wT` with `wHits` at threshold 2. -/
def wUdec : Forest :=
  match decorate wT wHits 2 with
  | .ok u => u
  | .error _ => .nil


/-- The tree `wT` with garbage topology metrics everywhere, to show
`best` does not depend on them. -/
def wT2 : Forest :=
  .node { name := some "r", min_tip_dist := 7, root_dist := 9 }
    (.node { name := some "a", min_tip_dist := 3, root_dist := 1 } .nil
      (.node { name := some "b", min_tip_dist := 2, root_dist := 8 } .nil
        .nil))
    .nil

/-- The tree `decorate` produces on `wT` with `wHits` at threshold 0. -/
def wUdec0 : Forest :=
  match decorate wT wHits 0 with
  | .ok u => u
  | .error _ => .nil

namespace Forest

/-- Same tree up to `hits`, the `hits[q]` of the second being the
`p`-filtered `hits[q]` of the first, for every query. -/
def HitsRel (p : Rat → Bool) : Forest → Forest → Prop
  | .nil, .nil => True
  | .node d1 c1 s1, .node d2 c2 s2 =>
    d2.name = d1.name ∧
    (∀ q, getQ d2.hits q = (getQ d1.hits q).filter p) ∧
    HitsRel p c1 c2 ∧ HitsRel p s1 s2
  | _, _ => False

/-- Pointwise sub-multiset relation on `hits` between two same-shape
trees: at every node of the first, `hits[q]` is a sub-multiset of the
corresponding `hits[q]` of the second. -/
def HitsLE : Forest → Forest → Prop
  | .nil, .nil => True
  | .node d2 c2 s2, .node d1 c1 s1 =>
    (∀ q, Multiset.ofList (getQ d2.hits q) ≤
      Multiset.ofList (getQ d1.hits q)) ∧
    HitsLE c2 c1 ∧ HitsLE s2 s1
  | _, _ => False

end Forest


section Lemmas

open Forest

theorem setMtd_isNil (t : Forest) : t.setMtd.isNil = t.isNil := by
  cases t <;> simp [setMtd, isNil]

theorem setRd_isNil (t : Forest) (r : Nat) : (t.setRd r).isNil = t.isNil := by
  cases t <;> simp [setRd, isNil]

theorem setNtips_isNil (t : Forest) : t.setNtips.isNil = t.isNil := by
  cases t <;> simp [setNtips, isNil]

theorem eraseScores_isNil (t : Forest) : t.eraseScores.isNil = t.isNil := by
  cases t <;> simp [eraseScores, isNil]

theorem minMtd_setRd (t : Forest) (r : Nat) : (t.setRd r).minMtd = t.minMtd := by
  induction t generalizing r with
  | nil => rfl
  | node d c s ihc ihs =>
    cases s with
    | nil => simp [setRd, minMtd]
    | node e c2 s2 => simp [setRd, minMtd, ← ihs r]

theorem mtdOK_setMtd (t : Forest) : MtdOK t.setMtd := by
  induction t with
  | nil => trivial
  | node d c s ihc ihs =>
    refine ⟨?_, ihc, ihs⟩
    simp [setMtd, MtdOK, setMtd_isNil]

theorem mtdOK_setRd (t : Forest) (r : Nat) (h : MtdOK t) : MtdOK (t.setRd r) := by
  induction t generalizing r with
  | nil => trivial
  | node d c s ihc ihs =>
    obtain ⟨h1, h2, h3⟩ := h
    exact ⟨by simp [setRd, MtdOK, setRd_isNil, minMtd_setRd, h1],
      ihc (r + 1) h2, ihs r h3⟩

theorem rdOK_setRd (t : Forest) (r : Nat) : RdOK r (t.setRd r) := by
  induction t generalizing r with
  | nil => trivial
  | node d c s ihc ihs => exact ⟨rfl, ihc (r + 1), ihs r⟩

theorem ntipsOK_setNtips (t : Forest) : NtipsOK t.setNtips := by
  induction t with
  | nil => trivial
  | node d c s ihc ihs =>
    refine ⟨?_, ihc, ihs⟩
    simp [setNtips, NtipsOK, setNtips_isNil]

theorem sumNtips_setNtips (t : Forest) : t.setNtips.sumNtips = t.countTips := by
  induction t with
  | nil => rfl
  | node d c s ihc ihs =>
    simp [setNtips, sumNtips, countTips, ihc, ihs]

theorem sumNtips_eraseScores (t : Forest) :
    t.eraseScores.sumNtips = t.sumNtips := by
  induction t with
  | nil => rfl
  | node d c s ihc ihs => simp [eraseScores, sumNtips, ihs]

theorem ntipsOK_eraseScores (t : Forest) :
    NtipsOK t.eraseScores ↔ NtipsOK t := by
  induction t with
  | nil => simp [eraseScores]
  | node d c s ihc ihs =>
    simp [eraseScores, NtipsOK, ihc, ihs, eraseScores_isNil,
      sumNtips_eraseScores]

theorem rootNtips_eraseScores (t : Forest) :
    t.eraseScores.rootNtips = t.rootNtips := by
  cases t <;> simp [eraseScores, rootNtips]

theorem scoreF_eraseScores (g : List (String × List Rat)) (f : ScoreFn) :
    ∀ t u : Forest, t.scoreF g f = .ok u → u.eraseScores = t.eraseScores := by
  intro t
  induction t with
  | nil =>
    intro u h
    simp [scoreF] at h
    simp [← h]
  | node d c s ihc ihs =>
    intro u h
    rw [scoreF] at h
    split at h
    · exact absurd h (by simp)
    · split at h
      · exact absurd h (by simp)
      · rename_i c' hc'
        split at h
        · exact absurd h (by simp)
        · rename_i s' hs'
          simp only [Except.ok.injEq] at h
          subst h
          simp [eraseScores, ihc c' hc', ihs s' hs']

end Lemmas

/-- Claim C8: after the two topology-metric passes
(`_set_minimum_distance_to_tips` then `_set_distance_to_root`) every tip
carries `min_tip_dist = 0`, every internal node carries one more than the
minimum over its children, the root carries `root_dist = 0`, and every
non-root node carries one more than its parent (encoded by `MtdOK` and
`RdOK 0`, which follow parent-child edges structurally). -/
theorem after_topology_passes_mtd_rd (t : Forest) :
    Forest.MtdOK t.setMtd ∧ Forest.MtdOK t.setMtd.setRootDist ∧
      Forest.RdOK 0 t.setMtd.setRootDist :=
  ⟨mtdOK_setMtd t, mtdOK_setRd _ 0 (mtdOK_setMtd t), rdOK_setRd _ 0⟩

/-- Claim C6: the default score-function family `make_f_beta beta`, on
non-empty global and local score sequences and a node with `ntips` set,
returns `(1+beta^2)*p*r / (beta^2*p + r)` with `p = |global| / |local|`
and `r = |local| / node.ntips`; it depends only on the two lengths and
`node.ntips`; and the shipped instances use beta 1, 1/2 and 2. -/
theorem make_f_beta_spec (beta : Rat) (g l : List Rat) (n : NodeData)
    (_hg : g ≠ []) (_hl : l ≠ []) (_hn : 0 < n.ntips) :
    (make_f_beta beta g l n =
      (1 + beta ^ 2) *
          (((g.length : Rat) / (l.length : Rat)) *
            ((l.length : Rat) / (n.ntips : Rat))) /
        (beta ^ 2 * ((g.length : Rat) / (l.length : Rat)) +
          (l.length : Rat) / (n.ntips : Rat))) ∧
    (∀ (g2 l2 : List Rat) (n2 : NodeData), g2.length = g.length →
      l2.length = l.length → n2.ntips = n.ntips →
      make_f_beta beta g2 l2 n2 = make_f_beta beta g l n) ∧
    f1_measure = make_f_beta 1 ∧ fhalf_measure = make_f_beta (1 / 2) ∧
    f2_measure = make_f_beta 2 := by
  refine ⟨rfl, ?_, rfl, rfl, rfl⟩
  intro g2 l2 n2 hg2 hl2 hn2
  simp only [make_f_beta, hg2, hl2, hn2]

/-- Witness for `make_f_beta_spec` at beta 1, singleton sequences and a
one-tip node. -/
theorem make_f_beta_spec_witness :
    (([(1 : Rat)] : List Rat) ≠ [] ∧ 0 < wNode.ntips) ∧
      f1_measure = make_f_beta 1 :=
  ⟨⟨by decide, by decide⟩,
    (make_f_beta_spec 1 [1] [1] wNode (by decide) (by decide)
      (by decide)).2.2.1⟩

/-- Claim C7: after the `ntips` pass that `score` runs, every tip carries
`ntips = 1`, every internal node carries the sum over its children
(encoded by `NtipsOK`), and the root carries the total number of tips of
the tree. -/
theorem score_ntips_spec (t : Forest) (f : ScoreFn) (u : Forest)
    (hok : score t f = .ok u) (ht : t.isTree = true) :
    Forest.NtipsOK u ∧ u.rootNtips = t.countTips := by
  have herase : u.eraseScores = t.setNtips.eraseScores :=
    scoreF_eraseScores _ f t.setNtips u hok
  constructor
  · rw [← ntipsOK_eraseScores, herase, ntipsOK_eraseScores]
    exact ntipsOK_setNtips t
  · have hroot : u.rootNtips = t.setNtips.rootNtips := by
      rw [← rootNtips_eraseScores u, herase, rootNtips_eraseScores]
    rw [hroot]
    cases t with
    | nil => simp [Forest.isTree] at ht
    | node d c s =>
      cases s with
      | node _ _ _ => simp [Forest.isTree] at ht
      | nil =>
        simp only [Forest.setNtips, Forest.rootNtips, Forest.countTips]
        cases hc : c.isNil with
        | true => simp [hc, Forest.countTips]
        | false => simp [hc, sumNtips_setNtips c]

/-- Witness for `score_ntips_spec` on the two-tip tree `wT` with the F1
metric. -/
theorem score_ntips_spec_witness :
    (score wT f1_measure = .ok wU ∧ wT.isTree = true) ∧
      wU.rootNtips = wT.countTips :=
  ⟨⟨rfl, rfl⟩, (score_ntips_spec wT f1_measure wU rfl rfl).2⟩

section InsertLemmas

open Forest

theorem size_appendSib (f : Forest) (nd : NodeData) :
    (f.appendSib nd).size = f.size + 1 := by
  induction f with
  | nil => rfl
  | node a c s ihc ihs => simp [appendSib, size, ihs]; omega

theorem seek_appendAt (nd : NodeData) :
    ∀ (t : Forest) (p : List Nat) (d : NodeData) (c : Forest),
      t.seek p = some (d, c) →
      (t.appendAt p nd).seek p = some (d, c.appendSib nd) := by
  intro t
  induction t with
  | nil => intro p d c h; cases p <;> simp [seek] at h
  | node a tc ts ihc ihs =>
    intro p d c h
    match p with
    | [] => simp [seek] at h
    | [0] =>
      simp [seek] at h
      simp [appendAt, seek, h]
    | 0 :: j :: rest =>
      rw [seek] at h
      rw [appendAt, seek]
      exact ihc (j :: rest) d c h
    | (n + 1) :: rest =>
      rw [seek] at h
      rw [appendAt, seek]
      exact ihs (n :: rest) d c h

theorem size_appendAt (nd : NodeData) :
    ∀ (t : Forest) (p : List Nat) (d : NodeData) (c : Forest),
      t.seek p = some (d, c) → (t.appendAt p nd).size = t.size + 1 := by
  intro t
  induction t with
  | nil => intro p d c h; cases p <;> simp [seek] at h
  | node a tc ts ihc ihs =>
    intro p d c h
    match p with
    | [] => simp [seek] at h
    | [0] =>
      simp [appendAt, size, size_appendSib]
      omega
    | 0 :: j :: rest =>
      rw [seek] at h
      rw [appendAt, size, size]
      have := ihc (j :: rest) d c h
      omega
    | (n + 1) :: rest =>
      rw [seek] at h
      rw [appendAt, size, size]
      have := ihs (n :: rest) d c h
      omega

theorem appendSib_seek_last (c : Forest) (nd : NodeData) :
    (c.appendSib nd).seek [c.countRoots] = some (nd, .nil) := by
  induction c with
  | nil => rfl
  | node a cc ss ihc ihs =>
    have h1 : (Forest.node a cc ss).countRoots = ss.countRoots + 1 := by
      simp [countRoots]; omega
    rw [h1, appendSib, seek]
    exact ihs

theorem seek_append_path :
    ∀ (t : Forest) (p p2 : List Nat) (d : NodeData) (c : Forest),
      p2 ≠ [] → t.seek p = some (d, c) → t.seek (p ++ p2) = c.seek p2 := by
  intro t
  induction t with
  | nil => intro p p2 d c h2 h; cases p <;> simp [seek] at h
  | node a tc ts ihc ihs =>
    intro p p2 d c h2 h
    match p with
    | [] => simp [seek] at h
    | [0] =>
      simp [seek] at h
      match p2, h2 with
      | j :: rest, _ =>
        simp only [List.cons_append, List.nil_append]
        rw [seek, h.2]
    | 0 :: j :: rest =>
      rw [seek] at h
      simp only [List.cons_append]
      rw [seek]
      exact ihc (j :: rest) p2 d c h2 h
    | (n + 1) :: rest =>
      rw [seek] at h
      simp only [List.cons_append]
      rw [seek]
      exact ihs (n :: rest) p2 d c h2 h

end InsertLemmas

/-- Claim C5: `insert` grafts a node for a result entry exactly when its
score is at or above the threshold; the grafted node is a childless tip
named by the query, with branch length `length_f(node, query, score)`
(0 under the default), appended as the last child of the recorded node;
entries below the threshold change nothing. -/
theorem insert_spec (t : Forest) (q : String) (e : BestEntry)
    (rest : List (String × BestEntry)) (thr : Rat) (lf : LengthFn)
    (d : NodeData) (c : Forest) (hpath : t.seek e.path = some (d, c)) :
    (thr ≤ e.score →
      insert t [(q, e)] thr lf =
        t.appendAt e.path (newTipData q (lf e.node q e.score)) ∧
      (insert t [(q, e)] thr lf).seek e.path =
        some (d, c.appendSib (newTipData q (lf e.node q e.score))) ∧
      (insert t [(q, e)] thr lf).seek (e.path ++ [c.countRoots]) =
        some (newTipData q (lf e.node q e.score), .nil) ∧
      (insert t [(q, e)] thr lf).size = t.size + 1) ∧
    (¬ thr ≤ e.score →
      insert t [(q, e)] thr lf = t ∧
      insert t ((q, e) :: rest) thr lf = insert t rest thr lf) ∧
    defaultLength e.node q e.score = 0 := by
  refine ⟨?_, ?_, rfl⟩
  · intro hle
    have heq : insert t [(q, e)] thr lf =
        t.appendAt e.path (newTipData q (lf e.node q e.score)) := by
      simp [insert, hle]
    have hseek := seek_appendAt (newTipData q (lf e.node q e.score)) t
      e.path d c hpath
    refine ⟨heq, ?_, ?_, ?_⟩
    · rw [heq]; exact hseek
    · rw [heq]
      rw [seek_append_path _ e.path [c.countRoots] d
        (c.appendSib (newTipData q (lf e.node q e.score)))
        (by simp) hseek]
      exact appendSib_seek_last c _
    · rw [heq]
      exact size_appendAt _ t e.path d c hpath
  · intro hlt
    constructor
    · simp [insert, hlt]
    · simp [insert, hlt]

/-- Witness for `insert_spec`: graft a tip for query `q` at the root of
the two-tip tree `wT`, with threshold 3 and score 5. -/
theorem insert_spec_witness :
    (wT.seek [0] = some ({ name := some "r" }, wTc) ∧ (3 : Rat) ≤ wE.score) ∧
      (insert wT [("q", wE)] 3 defaultLength).size = wT.size + 1 :=
  ⟨⟨rfl, by decide⟩,
    ((insert_spec wT "q" wE [] 3 defaultLength { name := some "r" } wTc
      rfl).1 (by decide)).2.2.2⟩

section BestLemmas

open Forest

theorem lookup_cons_eq {β : Type} (k q : String) (v : β)
    (l : List (String × β)) :
    ((k, v) :: l).lookup q = if q = k then some v else l.lookup q := by
  by_cases h : q = k
  · have h' : (q == k) = true := beq_iff_eq.mpr h
    simp [List.lookup, h', h]
  · have h' : (q == k) = false := by simpa using h
    simp [List.lookup, h', h]

theorem lookup_map_update (q q2 : String) (e : BestEntry) :
    ∀ res : List (String × BestEntry),
      ((res.map (fun p => if p.1 = q2 then (p.1, e) else p)).lookup q) =
        if q = q2 then (res.lookup q2).map (fun _ => e) else res.lookup q := by
  intro res
  induction res with
  | nil => simp
  | cons kv rest ih =>
    obtain ⟨k, v⟩ := kv
    simp only [List.map_cons]
    have hhead : (if (k, v).1 = q2 then ((k, v).1, e) else (k, v)) =
        (k, if k = q2 then e else v) := by
      by_cases hk : k = q2 <;> simp [hk]
    rw [hhead, lookup_cons_eq, lookup_cons_eq, lookup_cons_eq, ih]
    by_cases hq : q = k <;> by_cases h2 : q2 = k <;>
      by_cases hq2 : q = q2 <;> simp_all

theorem lookup_append_one (q q2 : String) (e : BestEntry) :
    ∀ res : List (String × BestEntry), res.lookup q2 = none →
      ((res ++ [(q2, e)]).lookup q) =
        if q = q2 then some e else res.lookup q := by
  intro res
  induction res with
  | nil =>
    intro _
    simp [lookup_cons_eq]
  | cons kv rest ih =>
    obtain ⟨k, v⟩ := kv
    intro h
    rw [lookup_cons_eq] at h
    by_cases h2 : q2 = k
    · simp [h2] at h
    · rw [if_neg h2] at h
      simp only [List.cons_append]
      rw [lookup_cons_eq, lookup_cons_eq, ih h]
      by_cases hq : q = k
      · have hne : ¬k = q2 := fun hc => h2 hc.symm
        simp [hq, hne]
      · simp [hq]

theorem lookup_eq_none_of_not_isSome (res : List (String × BestEntry))
    (q : String) (h : ¬(res.lookup q).isSome) : res.lookup q = none := by
  cases hr : res.lookup q with
  | none => rfl
  | some e => exact absurd (by rw [hr]; rfl) h

theorem lookup_store (res : List (String × BestEntry)) (q q2 : String)
    (e : BestEntry) :
    (store res q2 e).lookup q = if q = q2 then some e else res.lookup q := by
  unfold store
  by_cases hp : (res.lookup q2).isSome
  · rw [if_pos hp, lookup_map_update]
    by_cases hq : q = q2
    · obtain ⟨v, hv⟩ := Option.isSome_iff_exists.mp hp
      simp [hq, hv]
    · simp [hq]
  · rw [if_neg hp,
      lookup_append_one q q2 e res
        (lookup_eq_none_of_not_isSome res q2 hp)]

theorem lookup_isSome_iff_mem_keys (q : String) :
    ∀ res : List (String × BestEntry),
      (res.lookup q).isSome ↔ q ∈ res.map Prod.fst := by
  intro res
  induction res with
  | nil => simp
  | cons kv rest ih =>
    obtain ⟨k, v⟩ := kv
    rw [lookup_cons_eq]
    by_cases hq : q = k <;> simp [hq, ih]

theorem keys_store (res : List (String × BestEntry)) (q2 : String)
    (e : BestEntry) :
    (store res q2 e).map Prod.fst =
      if (res.lookup q2).isSome then res.map Prod.fst
      else res.map Prod.fst ++ [q2] := by
  unfold store
  by_cases hp : (res.lookup q2).isSome
  · rw [if_pos hp, if_pos hp, List.map_map]
    refine List.map_congr_left ?_
    intro p _
    by_cases h : p.1 = q2 <;> simp [h]
  · rw [if_neg hp, if_neg hp]
    simp

theorem nodup_keys_store (res : List (String × BestEntry)) (q2 : String)
    (e : BestEntry) (h : (res.map Prod.fst).Nodup) :
    ((store res q2 e).map Prod.fst).Nodup := by
  rw [keys_store]
  by_cases hp : (res.lookup q2).isSome
  · rwa [if_pos hp]
  · rw [if_neg hp]
    have hnot : q2 ∉ res.map Prod.fst := by
      rw [← lookup_isSome_iff_mem_keys]
      exact hp
    refine List.Nodup.append h (List.nodup_singleton _) ?_
    intro a ha hb
    rw [List.mem_singleton] at hb
    exact hnot (hb ▸ ha)

theorem scanOcc_append (bf : BattleFn) (acc : Option BestEntry)
    (l1 l2 : List (List Nat × NodeData × Rat)) :
    scanOcc bf acc (l1 ++ l2) = scanOcc bf (scanOcc bf acc l1) l2 := by
  simp [scanOcc, List.foldl_append]

theorem scanOcc_cons_none (bf : BattleFn) (x : List Nat × NodeData × Rat)
    (l : List (List Nat × NodeData × Rat)) :
    scanOcc bf none (x :: l) = scanOcc bf (some ⟨x.1, x.2.1, x.2.2⟩) l := by
  simp [scanOcc]

theorem scanOcc_cons_some (bf : BattleFn) (e : BestEntry)
    (x : List Nat × NodeData × Rat) (l : List (List Nat × NodeData × Rat)) :
    scanOcc bf (some e) (x :: l) =
      scanOcc bf
        (if bf x.2.1 e.node x.2.2 e.score then some ⟨x.1, x.2.1, x.2.2⟩
          else some e) l := by
  cases hbf : bf x.2.1 e.node x.2.2 e.score <;> simp [scanOcc, hbf]

theorem lookup_bestStep_inner (bf : BattleFn) (p : List Nat) (d : NodeData)
    (q : String) :
    ∀ (L : List (String × Rat)) (res : List (String × BestEntry)),
      ((L.foldl
          (fun acc qs =>
            match acc.lookup qs.1 with
            | none => store acc qs.1 ⟨p, d, qs.2⟩
            | some e =>
              if bf d e.node qs.2 e.score then store acc qs.1 ⟨p, d, qs.2⟩
              else acc)
          res).lookup q) =
        scanOcc bf (res.lookup q)
          (L.filterMap
            (fun qs => if qs.1 = q then some (p, d, qs.2) else none)) := by
  intro L
  induction L with
  | nil => intro res; simp [scanOcc]
  | cons qs rest ih =>
    intro res
    rw [List.foldl_cons, ih]
    by_cases hq : qs.1 = q
    · have hfc : (fun qs : String × Rat =>
          if qs.1 = q then some (p, d, qs.2) else none) qs =
            some (p, d, qs.2) := by simp [hq]
      rw [List.filterMap_cons_some
        (f := fun qs : String × Rat =>
          if qs.1 = q then some (p, d, qs.2) else none) (a := qs) hfc]
      cases hre : res.lookup qs.1 with
      | none =>
        have hq2 : res.lookup q = none := hq ▸ hre
        rw [hq2, scanOcc_cons_none]
        congr 1
        show (store res qs.1 ⟨p, d, qs.2⟩).lookup q = some ⟨p, d, qs.2⟩
        rw [lookup_store, if_pos hq.symm]
      | some e =>
        have hq2 : res.lookup q = some e := hq ▸ hre
        rw [hq2, scanOcc_cons_some]
        congr 1
        show ((if bf d e.node qs.2 e.score = true then
            store res qs.1 ⟨p, d, qs.2⟩ else res).lookup q) =
          if bf d e.node qs.2 e.score = true then some ⟨p, d, qs.2⟩
          else some e
        cases hbf : bf d e.node qs.2 e.score with
        | true =>
          rw [if_pos rfl, if_pos rfl, lookup_store, if_pos hq.symm]
        | false =>
          rw [if_neg (by simp), if_neg (by simp)]
          exact hq2
    · have hfc : (fun qs : String × Rat =>
          if qs.1 = q then some (p, d, qs.2) else none) qs = none := by
        simp [hq]
      rw [List.filterMap_cons_none
        (f := fun qs : String × Rat =>
          if qs.1 = q then some (p, d, qs.2) else none) (a := qs) hfc]
      congr 1
      cases hre : res.lookup qs.1 with
      | none =>
        show (store res qs.1 ⟨p, d, qs.2⟩).lookup q = res.lookup q
        rw [lookup_store, if_neg (fun hc => hq hc.symm)]
      | some e =>
        show ((if bf d e.node qs.2 e.score = true then
            store res qs.1 ⟨p, d, qs.2⟩ else res).lookup q) = res.lookup q
        cases hbf : bf d e.node qs.2 e.score with
        | true =>
          rw [if_pos rfl, lookup_store, if_neg (fun hc => hq hc.symm)]
        | false => rw [if_neg (by simp)]

theorem lookup_bestFold (bf : BattleFn) (q : String) :
    ∀ (L : List (List Nat × NodeData)) (res : List (String × BestEntry)),
      ((L.foldl (fun r pd => bestStep bf pd.1 pd.2 r) res).lookup q) =
        scanOcc bf (res.lookup q) (occurrences q L) := by
  intro L
  induction L with
  | nil => intro res; simp [occurrences, scanOcc]
  | cons pd rest ih =>
    intro res
    obtain ⟨p, d⟩ := pd
    rw [List.foldl_cons, ih, occurrences, scanOcc_append]
    congr 1
    exact lookup_bestStep_inner bf p d q d.scores res

theorem defaultBattle_eq_specReplaces : defaultBattle = specReplaces := by
  funext cur ex cs es
  unfold defaultBattle specReplaces
  by_cases h1 : es < cs
  · simp [h1, gt_iff_lt]
  · by_cases h2 : cs = es <;> simp [h1, h2, gt_iff_lt]

theorem nodup_keys_bestStep (bf : BattleFn) (p : List Nat) (d : NodeData)
    (res : List (String × BestEntry)) (h : (res.map Prod.fst).Nodup) :
    ((bestStep bf p d res).map Prod.fst).Nodup := by
  unfold bestStep
  induction d.scores generalizing res with
  | nil => simpa
  | cons qs rest ih =>
    rw [List.foldl_cons]
    apply ih
    cases hre : res.lookup qs.1 with
    | none => exact nodup_keys_store res qs.1 _ h
    | some e =>
      cases hbf : bf d e.node qs.2 e.score with
      | true => simpa [hbf] using nodup_keys_store res qs.1 _ h
      | false => simpa [hbf]

theorem nodup_keys_bestFold (bf : BattleFn) :
    ∀ (L : List (List Nat × NodeData)) (res : List (String × BestEntry)),
      (res.map Prod.fst).Nodup →
      ((L.foldl (fun r pd => bestStep bf pd.1 pd.2 r) res).map
        Prod.fst).Nodup := by
  intro L
  induction L with
  | nil => intro res h; simpa
  | cons pd rest ih =>
    intro res h
    exact ih _ (nodup_keys_bestStep bf pd.1 pd.2 res h)

theorem scanOcc_some (bf : BattleFn) (e : BestEntry) :
    ∀ l : List (List Nat × NodeData × Rat),
      (scanOcc bf (some e) l).isSome := by
  intro l
  induction l generalizing e with
  | nil => simp [scanOcc]
  | cons x rest ih =>
    rw [scanOcc_cons_some]
    cases hbf : bf x.2.1 e.node x.2.2 e.score <;> simp [hbf] <;> exact ih _

theorem scanOcc_none_isSome (bf : BattleFn)
    (l : List (List Nat × NodeData × Rat)) :
    (scanOcc bf none l).isSome ↔ l ≠ [] := by
  cases l with
  | nil => simp [scanOcc]
  | cons x rest =>
    simp only [ne_eq, reduceCtorEq, not_false_eq_true, iff_true]
    rw [scanOcc_cons_none]
    exact scanOcc_some bf _ rest

theorem occurrences_ne_nil (q : String) :
    ∀ L : List (List Nat × NodeData),
      occurrences q L ≠ [] ↔ ∃ pd ∈ L, ∃ s, (q, s) ∈ pd.2.scores := by
  intro L
  induction L with
  | nil => simp [occurrences]
  | cons pd rest ih =>
    obtain ⟨p, d⟩ := pd
    rw [occurrences]
    simp only [ne_eq, List.append_eq_nil, not_and_or, ih, List.mem_cons]
    constructor
    · rintro (hfm | hex)
      · rw [List.filterMap_eq_nil_iff] at hfm
        push_neg at hfm
        obtain ⟨qs, hmem, hne⟩ := hfm
        by_cases hq : qs.1 = q
        · exact ⟨(p, d), Or.inl rfl, qs.2, by rw [← hq]; exact hmem⟩
        · simp [hq] at hne
      · obtain ⟨pd2, hmem, hs⟩ := hex
        exact ⟨pd2, Or.inr hmem, hs⟩
    · rintro ⟨pd2, hpd2 | hpd2, s, hs⟩
      · left
        rw [List.filterMap_eq_nil_iff]
        push_neg
        refine ⟨(q, s), ?_, by simp⟩
        have hpd : pd2.2 = d := by rw [hpd2]
        rw [← hpd]
        exact hs
      · right
        exact ⟨pd2, hpd2, s, hs⟩

theorem postP_scores_setRd :
    ∀ (f : Forest) (p : List Nat) (i r : Nat),
      ((f.setRd r).postP p i).map (fun pd => pd.2.scores) =
        (f.postP p i).map (fun pd => pd.2.scores) := by
  intro f
  induction f with
  | nil => intros; rfl
  | node d c s ihc ihs =>
    intro p i r
    simp [setRd, postP, ihc, ihs]

theorem postP_scores_setMtd :
    ∀ (f : Forest) (p : List Nat) (i : Nat),
      (f.setMtd.postP p i).map (fun pd => pd.2.scores) =
        (f.postP p i).map (fun pd => pd.2.scores) := by
  intro f
  induction f with
  | nil => intros; rfl
  | node d c s ihc ihs =>
    intro p i
    simp [setMtd, postP, ihc, ihs]

theorem exists_scores_congr (L1 L2 : List (List Nat × NodeData))
    (h : L1.map (fun pd => pd.2.scores) = L2.map (fun pd => pd.2.scores))
    (P : List (String × Rat) → Prop) :
    (∃ pd ∈ L1, P pd.2.scores) ↔ ∃ pd ∈ L2, P pd.2.scores := by
  constructor
  · rintro ⟨pd, hmem, hp⟩
    have hm : pd.2.scores ∈ L2.map (fun pd => pd.2.scores) := by
      rw [← h]
      exact List.mem_map_of_mem _ hmem
    obtain ⟨pd2, hmem2, heq⟩ := List.mem_map.mp hm
    exact ⟨pd2, hmem2, heq ▸ hp⟩
  · rintro ⟨pd, hmem, hp⟩
    have hm : pd.2.scores ∈ L1.map (fun pd => pd.2.scores) := by
      rw [h]
      exact List.mem_map_of_mem _ hmem
    obtain ⟨pd2, hmem2, heq⟩ := List.mem_map.mp hm
    exact ⟨pd2, hmem2, heq ▸ hp⟩

end BestLemmas

/-- Claim C2: `best` with the default battle refines the spec-side scan
`specScan`: per query the recorded entry is replaced during the postorder
scan exactly when the current score is strictly greater, or tied with a
strictly smaller `min_tip_dist`, full ties keeping the earlier-visited
node; and the result has exactly one entry (its keys are distinct) per
query owning some `scores` entry somewhere in the tree. -/
theorem best_default_spec (t : Forest) (q : String) :
    (best t defaultBattle).lookup q =
        specScan q ((bestTree t).postP [] 0) ∧
    (((best t defaultBattle).lookup q).isSome ↔
      ∃ pd ∈ t.postP [] 0, ∃ s, (q, s) ∈ pd.2.scores) ∧
    ((best t defaultBattle).map Prod.fst).Nodup := by
  have hmain : (best t defaultBattle).lookup q =
      scanOcc defaultBattle none (occurrences q ((bestTree t).postP [] 0)) := by
    unfold best
    rw [lookup_bestFold]
    rfl
  refine ⟨?_, ?_, ?_⟩
  · rw [hmain, defaultBattle_eq_specReplaces]
    rfl
  · rw [hmain, scanOcc_none_isSome, occurrences_ne_nil]
    refine exists_scores_congr ((bestTree t).postP [] 0) (t.postP [] 0) ?_
      (fun m => ∃ s, (q, s) ∈ m)
    show ((t.setMtd.setRd 0).postP [] 0).map _ = _
    rw [postP_scores_setRd, postP_scores_setMtd]
  · exact nodup_keys_bestFold defaultBattle _ [] (by simp)

section DecorateLemmas

open Forest

theorem updTip_isSome (nm : String) (f : NodeData → NodeData) :
    ∀ t : Forest, (t.updTip nm f).isSome = t.hasTip nm := by
  intro t
  induction t with
  | nil => rfl
  | node d c s ihc ihs =>
    rw [updTip]
    cases hc : c.updTip nm f with
    | some c2 =>
      have hct : c.hasTip nm = true := by rw [← ihc, hc]; rfl
      simp [hasTip, hct]
    | none =>
      have hcf : c.hasTip nm = false := by rw [← ihc, hc]; rfl
      by_cases hcond : c.isNil = true ∧ d.name = some nm
      · rw [if_pos hcond]
        simp [hasTip, hcond.1, hcond.2]
      · rw [if_neg hcond]
        cases hs : s.updTip nm f with
        | some s2 =>
          have hst : s.hasTip nm = true := by rw [← ihs, hs]; rfl
          simp [hasTip, hst]
        | none =>
          have hsf : s.hasTip nm = false := by rw [← ihs, hs]; rfl
          simp only [hasTip, hcf, hsf, Bool.or_false, Option.isSome_none]
          cases hn : c.isNil with
          | false => simp
          | true =>
            have hnm : ¬d.name = some nm := fun h2 => hcond ⟨hn, h2⟩
            simp [hnm]

theorem updNonTip_isSome (nm : String) (f : NodeData → NodeData) :
    ∀ t : Forest, (t.updNonTip nm f).isSome = t.hasNonTip nm := by
  intro t
  induction t with
  | nil => rfl
  | node d c s ihc ihs =>
    rw [updNonTip]
    cases hc : c.updNonTip nm f with
    | some c2 =>
      have hct : c.hasNonTip nm = true := by rw [← ihc, hc]; rfl
      simp [hasNonTip, hct]
    | none =>
      have hcf : c.hasNonTip nm = false := by rw [← ihc, hc]; rfl
      by_cases hcond : ¬c.isNil = true ∧ d.name = some nm
      · rw [if_pos hcond]
        have hn : c.isNil = false := by
          cases hn : c.isNil with
          | false => rfl
          | true => exact absurd hn hcond.1
        simp [hasNonTip, hn, hcond.2]
      · rw [if_neg hcond]
        cases hs : s.updNonTip nm f with
        | some s2 =>
          have hst : s.hasNonTip nm = true := by rw [← ihs, hs]; rfl
          simp [hasNonTip, hst]
        | none =>
          have hsf : s.hasNonTip nm = false := by rw [← ihs, hs]; rfl
          simp only [hasNonTip, hcf, hsf, Bool.or_false, Option.isSome_none]
          cases hn : c.isNil with
          | true => simp
          | false =>
            have hnm : ¬d.name = some nm := fun h2 =>
              hcond ⟨by simp [hn], h2⟩
            simp [hnm]

theorem findAndUpd_isSome (t : Forest) (nm : String)
    (f : NodeData → NodeData) :
    (t.findAndUpd nm f).isSome = t.hasNode nm := by
  rw [findAndUpd, hasNode]
  cases ht : t.updTip nm f with
  | some t2 =>
    have h1 : t.hasTip nm = true := by rw [← updTip_isSome nm f t, ht]; rfl
    simp [h1]
  | none =>
    have h1 : t.hasTip nm = false := by rw [← updTip_isSome nm f t, ht]; rfl
    simp [h1, updNonTip_isSome]

theorem updTip_shapeNames (nm : String) (f : NodeData → NodeData)
    (hf : ∀ d, (f d).name = d.name) :
    ∀ t t2 : Forest, t.updTip nm f = some t2 →
      t2.shapeNames = t.shapeNames := by
  intro t
  induction t with
  | nil => intro t2 h; simp [updTip] at h
  | node d c s ihc ihs =>
    intro t2 h
    rw [updTip] at h
    cases hc : c.updTip nm f with
    | some c2 =>
      rw [hc] at h
      have h2 : some (Forest.node d c2 s) = some t2 := h
      cases h2
      simp [shapeNames, ihc c2 hc]
    | none =>
      rw [hc] at h
      have h2 : (if c.isNil = true ∧ d.name = some nm
          then some (Forest.node (f d) c s)
          else match s.updTip nm f with
            | some s2 => some (Forest.node d c s2)
            | none => none) = some t2 := h
      by_cases hcond : c.isNil = true ∧ d.name = some nm
      · rw [if_pos hcond] at h2
        cases h2
        simp [shapeNames, hf d]
      · rw [if_neg hcond] at h2
        cases hs : s.updTip nm f with
        | some s2 =>
          rw [hs] at h2
          have h3 : some (Forest.node d c s2) = some t2 := h2
          cases h3
          simp [shapeNames, ihs s2 hs]
        | none =>
          rw [hs] at h2
          cases h2

theorem updNonTip_shapeNames (nm : String) (f : NodeData → NodeData)
    (hf : ∀ d, (f d).name = d.name) :
    ∀ t t2 : Forest, t.updNonTip nm f = some t2 →
      t2.shapeNames = t.shapeNames := by
  intro t
  induction t with
  | nil => intro t2 h; simp [updNonTip] at h
  | node d c s ihc ihs =>
    intro t2 h
    rw [updNonTip] at h
    cases hc : c.updNonTip nm f with
    | some c2 =>
      rw [hc] at h
      have h2 : some (Forest.node d c2 s) = some t2 := h
      cases h2
      simp [shapeNames, ihc c2 hc]
    | none =>
      rw [hc] at h
      have h2 : (if ¬c.isNil = true ∧ d.name = some nm
          then some (Forest.node (f d) c s)
          else match s.updNonTip nm f with
            | some s2 => some (Forest.node d c s2)
            | none => none) = some t2 := h
      by_cases hcond : ¬c.isNil = true ∧ d.name = some nm
      · rw [if_pos hcond] at h2
        cases h2
        simp [shapeNames, hf d]
      · rw [if_neg hcond] at h2
        cases hs : s.updNonTip nm f with
        | some s2 =>
          rw [hs] at h2
          have h3 : some (Forest.node d c s2) = some t2 := h2
          cases h3
          simp [shapeNames, ihs s2 hs]
        | none =>
          rw [hs] at h2
          cases h2

theorem findAndUpd_shapeNames (nm : String) (f : NodeData → NodeData)
    (hf : ∀ d, (f d).name = d.name) (t t2 : Forest)
    (h : t.findAndUpd nm f = some t2) : t2.shapeNames = t.shapeNames := by
  rw [findAndUpd] at h
  cases ht : t.updTip nm f with
  | some t3 =>
    rw [ht] at h
    cases h
    exact updTip_shapeNames nm f hf t t2 ht
  | none =>
    rw [ht] at h
    exact updNonTip_shapeNames nm f hf t t2 h

theorem shapeNames_isNil (t : Forest) : t.shapeNames.isNil = t.isNil := by
  cases t <;> simp [shapeNames, isNil]

theorem hasTip_shapeNames (nm : String) :
    ∀ t : Forest, t.shapeNames.hasTip nm = t.hasTip nm := by
  intro t
  induction t with
  | nil => rfl
  | node d c s ihc ihs =>
    simp [shapeNames, hasTip, ihc, ihs, shapeNames_isNil]

theorem hasNonTip_shapeNames (nm : String) :
    ∀ t : Forest, t.shapeNames.hasNonTip nm = t.hasNonTip nm := by
  intro t
  induction t with
  | nil => rfl
  | node d c s ihc ihs =>
    simp [shapeNames, hasNonTip, ihc, ihs, shapeNames_isNil]

theorem hasNode_congr (t1 t2 : Forest)
    (h : t1.shapeNames = t2.shapeNames) (nm : String) :
    t1.hasNode nm = t2.hasNode nm := by
  rw [hasNode, hasNode, ← hasTip_shapeNames nm t1, ← hasTip_shapeNames nm t2,
    ← hasNonTip_shapeNames nm t1, ← hasNonTip_shapeNames nm t2, h]

theorem hasTip_congr (t1 t2 : Forest)
    (h : t1.shapeNames = t2.shapeNames) (nm : String) :
    t1.hasTip nm = t2.hasTip nm := by
  rw [← hasTip_shapeNames nm t1, ← hasTip_shapeNames nm t2, h]

theorem shapeNames_clearHits (t : Forest) :
    t.clearHits.shapeNames = t.shapeNames := by
  induction t with
  | nil => rfl
  | node d c s ihc ihs => simp [clearHits, shapeNames, ihc, ihs]

theorem decorate_update_name (thr : Rat) (q : String) (h : Hit)
    (d : NodeData) :
    ((fun d => if thr ≤ h.seq_score then addHit q h.seq_score d else d)
      d).name = d.name := by
  by_cases hle : thr ≤ h.seq_score <;> simp [addHit, hle]

theorem decorateOne_eq_flat (thr : Rat) (q : String) :
    ∀ (ds : List Hit) (t : Forest),
      decorateOne thr q t ds =
        decorateFlat thr t (ds.map (fun h => (q, h))) := by
  intro ds
  induction ds with
  | nil => intro t; rfl
  | cons h rest ih =>
    intro t
    rw [decorateOne, List.map_cons, decorateFlat]
    cases hf : t.findAndUpd h.subject
        (fun d => if thr ≤ h.seq_score then addHit q h.seq_score d else d) with
    | none => rfl
    | some t2 => exact ih t2

theorem decorateFlat_append (thr : Rat) (l2 : List (String × Hit)) :
    ∀ (l1 : List (String × Hit)) (t : Forest),
      decorateFlat thr t (l1 ++ l2) =
        match decorateFlat thr t l1 with
        | .error e => .error e
        | .ok u => decorateFlat thr u l2 := by
  intro l1
  induction l1 with
  | nil => intro t; rfl
  | cons qh rest ih =>
    intro t
    obtain ⟨q, h⟩ := qh
    rw [List.cons_append, decorateFlat, decorateFlat]
    cases hf : t.findAndUpd h.subject
        (fun d => if thr ≤ h.seq_score then addHit q h.seq_score d else d) with
    | none => rfl
    | some t2 => exact ih t2

theorem decorateAll_eq_flat (thr : Rat) :
    ∀ (l : List (String × List Hit)) (t : Forest),
      decorateAll thr t l = decorateFlat thr t (flatHits l) := by
  intro l
  induction l with
  | nil => intro t; rfl
  | cons p rest ih =>
    intro t
    obtain ⟨q, ds⟩ := p
    rw [decorateAll, flatHits, List.flatMap_cons, decorateFlat_append,
      decorateOne_eq_flat thr q ds t]
    cases hf : decorateFlat thr t (ds.map (fun h => (q, h))) with
    | error e => rfl
    | ok t2 => exact ih t2

theorem decorateFlat_ok_iff (thr : Rat) :
    ∀ (l : List (String × Hit)) (t : Forest),
      (∃ u, decorateFlat thr t l = .ok u) ↔
        ∀ qh ∈ l, t.hasNode qh.2.subject = true := by
  intro l
  induction l with
  | nil => intro t; simp [decorateFlat]
  | cons qh rest ih =>
    intro t
    obtain ⟨q, h⟩ := qh
    rw [decorateFlat]
    cases hf : t.findAndUpd h.subject
        (fun d => if thr ≤ h.seq_score then addHit q h.seq_score d else d) with
    | none =>
      have hn : t.hasNode h.subject = false := by
        rw [← findAndUpd_isSome t h.subject
          (fun d => if thr ≤ h.seq_score then addHit q h.seq_score d else d),
          hf]
        rfl
      constructor
      · rintro ⟨u, hu⟩
        cases hu
      · intro hall
        have := hall (q, h) (List.mem_cons_self _ _)
        rw [hn] at this
        cases this
    | some t2 =>
      have hshape : t2.shapeNames = t.shapeNames :=
        findAndUpd_shapeNames h.subject _
          (decorate_update_name thr q h) t t2 hf
      have hft : t.hasNode h.subject = true := by
        rw [← findAndUpd_isSome t h.subject
          (fun d => if thr ≤ h.seq_score then addHit q h.seq_score d else d),
          hf]
        rfl
      rw [ih t2]
      simp only [List.forall_mem_cons, hft, true_and]
      constructor
      · intro hall qh hm
        rw [← hasNode_congr t2 t hshape]
        exact hall qh hm
      · intro hall qh hm
        rw [hasNode_congr t2 t hshape]
        exact hall qh hm

theorem mem_flatHits (hits : List (String × List Hit)) (qh : String × Hit) :
    qh ∈ flatHits hits ↔ ∃ p ∈ hits, ∃ h ∈ p.2, qh = (p.1, h) := by
  rw [flatHits]
  simp only [List.mem_flatMap, List.mem_map]
  constructor
  · rintro ⟨p, hp, h, hh, rfl⟩
    exact ⟨p, hp, h, hh, rfl⟩
  · rintro ⟨p, hp, h, hh, rfl⟩
    exact ⟨p, hp, h, hh, rfl⟩

end DecorateLemmas

/-- Claim C3 counterexample: `decorate` raises even for a hit whose
`seq_score` 0 is below the threshold 1, because `tree.find(subject)` runs
before the threshold test; the claim says below-threshold hits never
cause an error. -/
theorem decorate_error_below_threshold :
    decorate tA hitsBelow 1 = .error "zzz" ∧ (0 : Rat) < 1 :=
  ⟨rfl, by norm_num⟩

/-- Claim C3 (amended): `decorate` succeeds exactly when every hit of the
stream — passing or not — has a subject naming some node (tip or
internal) of the tree; equivalently it raises exactly when some hit has a
subject naming no node, regardless of its `seq_score`. -/
theorem decorate_lookup_spec (t : Forest) (hits : List (String × List Hit))
    (thr : Rat) :
    (∃ u, decorate t hits thr = .ok u) ↔
      ∀ p ∈ hits, ∀ h ∈ p.2, t.hasNode h.subject = true := by
  rw [decorate, decorateAll_eq_flat, decorateFlat_ok_iff]
  have hcl : ∀ nm, t.clearHits.hasNode nm = t.hasNode nm := fun nm =>
    hasNode_congr t.clearHits t (shapeNames_clearHits t) nm
  constructor
  · intro hall p hp h hh
    rw [← hcl]
    exact hall (p.1, h) ((mem_flatHits hits (p.1, h)).mpr ⟨p, hp, h, hh, rfl⟩)
  · intro hall qh hm
    obtain ⟨p, hp, h, hh, rfl⟩ := (mem_flatHits hits qh).mp hm
    rw [hcl]
    exact hall p hp h hh

section DecorateTipLemmas

open Forest

theorem lookup_append_new {β : Type} (q k : String) (v : β) :
    ∀ m : List (String × β), m.lookup k = none →
      ((m ++ [(k, v)]).lookup q) = if q = k then some v else m.lookup q := by
  intro m
  induction m with
  | nil =>
    intro _
    simp [lookup_cons_eq]
  | cons kv rest ih =>
    obtain ⟨k2, v2⟩ := kv
    intro h
    rw [lookup_cons_eq] at h
    by_cases h2 : k = k2
    · simp [h2] at h
    · rw [if_neg h2] at h
      simp only [List.cons_append]
      rw [lookup_cons_eq, lookup_cons_eq, ih h]
      by_cases hq : q = k2
      · have hne : ¬k2 = k := fun hc => h2 hc.symm
        simp [hq, hne]
      · simp [hq]

theorem lookup_map_extend (k q : String) (v : List Rat) :
    ∀ m : List (String × List Rat),
      ((m.map (fun p => if p.1 = k then (p.1, p.2 ++ v) else p)).lookup q) =
        if q = k then (m.lookup k).map (· ++ v) else m.lookup q := by
  intro m
  induction m with
  | nil => simp
  | cons kv rest ih =>
    obtain ⟨k2, v2⟩ := kv
    simp only [List.map_cons]
    have hhead : (if (k2, v2).1 = k then ((k2, v2).1, (k2, v2).2 ++ v)
        else (k2, v2)) = (k2, if k2 = k then v2 ++ v else v2) := by
      by_cases hk : k2 = k <;> simp [hk]
    rw [hhead, lookup_cons_eq, lookup_cons_eq, lookup_cons_eq, ih]
    by_cases hq : q = k2 <;> by_cases h2 : k = k2 <;>
      by_cases hqk : q = k <;> simp_all

theorem getQ_dext (m : List (String × List Rat)) (k q : String)
    (v : List Rat) :
    getQ (dext m k v) q = getQ m q ++ (if q = k then v else []) := by
  unfold getQ dext
  by_cases hp : (m.lookup k).isSome
  · rw [if_pos hp, lookup_map_extend]
    by_cases hq : q = k
    · obtain ⟨w, hw⟩ := Option.isSome_iff_exists.mp hp
      simp [hq, hw]
    · simp [hq]
  · have hn : m.lookup k = none := Option.not_isSome_iff_eq_none.mp hp
    rw [if_neg hp, lookup_append_new q k v m hn]
    by_cases hq : q = k
    · subst hq
      simp [hn]
    · simp [hq]

theorem keys_dext (m : List (String × List Rat)) (k : String)
    (v : List Rat) :
    (dext m k v).map Prod.fst =
      if (m.lookup k).isSome then m.map Prod.fst
      else m.map Prod.fst ++ [k] := by
  unfold dext
  by_cases hp : (m.lookup k).isSome
  · rw [if_pos hp, if_pos hp, List.map_map]
    refine List.map_congr_left ?_
    intro p _
    by_cases h : p.1 = k <;> simp [h]
  · rw [if_neg hp, if_neg hp]
    simp

theorem lookup_isSome_iff_mem {β : Type} (q : String) :
    ∀ m : List (String × β), (m.lookup q).isSome ↔ q ∈ m.map Prod.fst := by
  intro m
  induction m with
  | nil => simp
  | cons kv rest ih =>
    obtain ⟨k, v⟩ := kv
    rw [lookup_cons_eq]
    by_cases hq : q = k <;> simp [hq, ih]

theorem nodup_keys_dext (m : List (String × List Rat)) (k : String)
    (v : List Rat) (h : (m.map Prod.fst).Nodup) :
    ((dext m k v).map Prod.fst).Nodup := by
  rw [keys_dext]
  by_cases hp : (m.lookup k).isSome
  · rwa [if_pos hp]
  · rw [if_neg hp]
    have hnot : k ∉ m.map Prod.fst := by
      rw [← lookup_isSome_iff_mem]
      exact hp
    refine List.Nodup.append h (List.nodup_singleton _) ?_
    intro a ha hb
    rw [List.mem_singleton] at hb
    exact hnot (hb ▸ ha)

theorem tipData_isSome (nm : String) :
    ∀ t : Forest, (t.tipData? nm).isSome = t.hasTip nm := by
  intro t
  induction t with
  | nil => rfl
  | node d c s ihc ihs =>
    rw [tipData?]
    cases hc : c.tipData? nm with
    | some d2 =>
      have hct : c.hasTip nm = true := by rw [← ihc, hc]; rfl
      simp [hasTip, hct]
    | none =>
      have hcf : c.hasTip nm = false := by rw [← ihc, hc]; rfl
      by_cases hcond : c.isNil = true ∧ d.name = some nm
      · rw [if_pos hcond]
        simp [hasTip, hcond.1, hcond.2]
      · rw [if_neg hcond]
        rw [ihs]
        simp only [hasTip, hcf, Bool.or_false, Bool.false_or]
        cases hn : c.isNil with
        | false => simp
        | true =>
          have hnm : ¬d.name = some nm := fun h2 => hcond ⟨hn, h2⟩
          simp [hnm]

theorem updTip_isNil (nm : String) (f : NodeData → NodeData)
    (hf : ∀ d, (f d).name = d.name) (t t2 : Forest)
    (h : t.updTip nm f = some t2) : t2.isNil = t.isNil := by
  rw [← shapeNames_isNil t2, ← shapeNames_isNil t,
    updTip_shapeNames nm f hf t t2 h]

theorem updTip_tipData_self (nm : String) (f : NodeData → NodeData)
    (hf : ∀ d, (f d).name = d.name) :
    ∀ t t2 : Forest, t.updTip nm f = some t2 →
      t2.tipData? nm = (t.tipData? nm).map f := by
  intro t
  induction t with
  | nil => intro t2 h; simp [updTip] at h
  | node d c s ihc ihs =>
    intro t2 h
    rw [updTip] at h
    cases hc : c.updTip nm f with
    | some c2 =>
      rw [hc] at h
      have h2 : some (Forest.node d c2 s) = some t2 := h
      cases h2
      have hcs : (c.tipData? nm).isSome := by
        rw [tipData_isSome, ← updTip_isSome nm f c, hc]
        rfl
      obtain ⟨dc, hdc⟩ := Option.isSome_iff_exists.mp hcs
      have hc2 : c2.tipData? nm = some (f dc) := by
        rw [ihc c2 hc, hdc]
        rfl
      rw [tipData?, tipData?, hc2, hdc]
      rfl
    | none =>
      rw [hc] at h
      have h2 : (if c.isNil = true ∧ d.name = some nm
          then some (Forest.node (f d) c s)
          else match s.updTip nm f with
            | some s2 => some (Forest.node d c s2)
            | none => none) = some t2 := h
      have hct : c.hasTip nm = false := by
        rw [← updTip_isSome nm f c, hc]
        rfl
      have hcn : c.tipData? nm = none := by
        have := tipData_isSome nm c
        rw [hct] at this
        exact Option.not_isSome_iff_eq_none.mp (by rw [this]; simp)
      by_cases hcond : c.isNil = true ∧ d.name = some nm
      · rw [if_pos hcond] at h2
        cases h2
        rw [tipData?, tipData?, hcn]
        have hfd : (f d).name = some nm := by rw [hf d]; exact hcond.2
        rw [if_pos ⟨hcond.1, hfd⟩, if_pos hcond]
        rfl
      · rw [if_neg hcond] at h2
        cases hs : s.updTip nm f with
        | some s2 =>
          rw [hs] at h2
          have h3 : some (Forest.node d c s2) = some t2 := h2
          cases h3
          rw [tipData?, tipData?, hcn, if_neg hcond, if_neg hcond,
            ihs s2 hs]
        | none =>
          rw [hs] at h2
          cases h2

theorem updTip_tipData_other (nm nm2 : String) (hne : nm2 ≠ nm)
    (f : NodeData → NodeData) (hf : ∀ d, (f d).name = d.name) :
    ∀ t t2 : Forest, t.updTip nm f = some t2 →
      t2.tipData? nm2 = t.tipData? nm2 := by
  intro t
  induction t with
  | nil => intro t2 h; simp [updTip] at h
  | node d c s ihc ihs =>
    intro t2 h
    rw [updTip] at h
    cases hc : c.updTip nm f with
    | some c2 =>
      rw [hc] at h
      have h2 : some (Forest.node d c2 s) = some t2 := h
      cases h2
      have hnil : c2.isNil = c.isNil :=
        updTip_isNil nm f hf c c2 hc
      rw [tipData?, tipData?, ihc c2 hc, hnil]
    | none =>
      rw [hc] at h
      have h2 : (if c.isNil = true ∧ d.name = some nm
          then some (Forest.node (f d) c s)
          else match s.updTip nm f with
            | some s2 => some (Forest.node d c s2)
            | none => none) = some t2 := h
      by_cases hcond : c.isNil = true ∧ d.name = some nm
      · rw [if_pos hcond] at h2
        cases h2
        rw [tipData?, tipData?]
        have hfd : ¬(f d).name = some nm2 := by
          rw [hf d, hcond.2]
          exact fun hcon => hne (by injection hcon with hh; exact hh.symm)
        have hdn : ¬d.name = some nm2 := by
          rw [hcond.2]
          exact fun hcon => hne (by injection hcon with hh; exact hh.symm)
        rw [if_neg (fun hx => hfd hx.2), if_neg (fun hx => hdn hx.2)]
      · rw [if_neg hcond] at h2
        cases hs : s.updTip nm f with
        | some s2 =>
          rw [hs] at h2
          have h3 : some (Forest.node d c s2) = some t2 := h2
          cases h3
          rw [tipData?, tipData?, ihs s2 hs]
        | none =>
          rw [hs] at h2
          cases h2

theorem updTip_internalEmpty (nm : String) (f : NodeData → NodeData)
    (hf : ∀ d, (f d).name = d.name) :
    ∀ t t2 : Forest, t.updTip nm f = some t2 →
      InternalHitsEmpty t → InternalHitsEmpty t2 := by
  intro t
  induction t with
  | nil => intro t2 h; simp [updTip] at h
  | node d c s ihc ihs =>
    intro t2 h hie
    obtain ⟨hd, hic, his⟩ := hie
    rw [updTip] at h
    cases hc : c.updTip nm f with
    | some c2 =>
      rw [hc] at h
      have h2 : some (Forest.node d c2 s) = some t2 := h
      cases h2
      have hnil : c2.isNil = c.isNil := updTip_isNil nm f hf c c2 hc
      exact ⟨by rw [hnil]; exact hd, ihc c2 hc hic, his⟩
    | none =>
      rw [hc] at h
      have h2 : (if c.isNil = true ∧ d.name = some nm
          then some (Forest.node (f d) c s)
          else match s.updTip nm f with
            | some s2 => some (Forest.node d c s2)
            | none => none) = some t2 := h
      by_cases hcond : c.isNil = true ∧ d.name = some nm
      · rw [if_pos hcond] at h2
        cases h2
        exact ⟨Or.inl hcond.1, hic, his⟩
      · rw [if_neg hcond] at h2
        cases hs : s.updTip nm f with
        | some s2 =>
          rw [hs] at h2
          have h3 : some (Forest.node d c s2) = some t2 := h2
          cases h3
          exact ⟨hd, hic, ihs s2 hs his⟩
        | none =>
          rw [hs] at h2
          cases h2

theorem updTip_ndHits (nm : String) (f : NodeData → NodeData)
    (hfnd : ∀ d : NodeData, (d.hits.map Prod.fst).Nodup →
      ((f d).hits.map Prod.fst).Nodup) :
    ∀ t t2 : Forest, t.updTip nm f = some t2 → NDHits t → NDHits t2 := by
  intro t
  induction t with
  | nil => intro t2 h; simp [updTip] at h
  | node d c s ihc ihs =>
    intro t2 h hnd
    obtain ⟨hd, hnc, hns⟩ := hnd
    rw [updTip] at h
    cases hc : c.updTip nm f with
    | some c2 =>
      rw [hc] at h
      have h2 : some (Forest.node d c2 s) = some t2 := h
      cases h2
      exact ⟨hd, ihc c2 hc hnc, hns⟩
    | none =>
      rw [hc] at h
      have h2 : (if c.isNil = true ∧ d.name = some nm
          then some (Forest.node (f d) c s)
          else match s.updTip nm f with
            | some s2 => some (Forest.node d c s2)
            | none => none) = some t2 := h
      by_cases hcond : c.isNil = true ∧ d.name = some nm
      · rw [if_pos hcond] at h2
        cases h2
        exact ⟨hfnd d hd, hnc, hns⟩
      · rw [if_neg hcond] at h2
        cases hs : s.updTip nm f with
        | some s2 =>
          rw [hs] at h2
          have h3 : some (Forest.node d c s2) = some t2 := h2
          cases h3
          exact ⟨hd, hnc, ihs s2 hs hns⟩
        | none =>
          rw [hs] at h2
          cases h2

end DecorateTipLemmas
section DecorateMain

open Forest

theorem clearHits_isNil (t : Forest) : t.clearHits.isNil = t.isNil := by
  cases t <;> simp [clearHits, isNil]

theorem tipData_clearHits (nm : String) :
    ∀ t : Forest, t.clearHits.tipData? nm =
      (t.tipData? nm).map (fun d => { d with hits := [] }) := by
  intro t
  induction t with
  | nil => rfl
  | node d c s ihc ihs =>
    rw [clearHits, tipData?, tipData?, ihc]
    cases hc : c.tipData? nm with
    | some d2 => rfl
    | none =>
      simp only [Option.map_none']
      by_cases hcond : c.isNil = true ∧ d.name = some nm
      · rw [if_pos ⟨by rw [clearHits_isNil]; exact hcond.1, hcond.2⟩,
          if_pos hcond]
        rfl
      · have hcond2 : ¬(c.clearHits.isNil = true ∧
            ({ d with hits := [] } : NodeData).name = some nm) := by
          rw [clearHits_isNil]
          exact hcond
        rw [if_neg hcond2, if_neg hcond, ihs]

theorem internalEmpty_clearHits (t : Forest) :
    InternalHitsEmpty t.clearHits := by
  induction t with
  | nil => trivial
  | node d c s ihc ihs => exact ⟨Or.inr rfl, ihc, ihs⟩

theorem ndHits_clearHits (t : Forest) : NDHits t.clearHits := by
  induction t with
  | nil => trivial
  | node d c s ihc ihs => exact ⟨by simp, ihc, ihs⟩

theorem expHits_cons (qH : String) (h : Hit) (rest : List (String × Hit))
    (thr : Rat) (nm q2 : String) :
    expHits ((qH, h) :: rest) thr nm q2 =
      (if qH = q2 ∧ h.subject = nm ∧ thr ≤ h.seq_score then [h.seq_score]
        else []) ++ expHits rest thr nm q2 := by
  rw [expHits, expHits, List.filter_cons]
  by_cases hc : qH = q2 ∧ h.subject = nm ∧ thr ≤ h.seq_score
  · obtain ⟨h1, h2, h3⟩ := hc
    have hb : ((qH, h).1 == q2 && ((qH, h).2.subject == nm) &&
        decide (thr ≤ (qH, h).2.seq_score)) = true := by
      simp [h1, h2, h3]
    rw [if_pos hb, if_pos ⟨h1, h2, h3⟩]
    simp
  · have hb : ¬((qH, h).1 == q2 && ((qH, h).2.subject == nm) &&
        decide (thr ≤ (qH, h).2.seq_score)) = true := by
      simpa [and_assoc] using hc
    rw [if_neg hb, if_neg hc]
    simp

theorem getQ_update (thr : Rat) (qH : String) (h : Hit) (d : NodeData)
    (q2 : String) :
    getQ ((if thr ≤ h.seq_score then
        addHit qH h.seq_score d else d).hits) q2 =
      getQ d.hits q2 ++
        (if q2 = qH ∧ thr ≤ h.seq_score then [h.seq_score] else []) := by
  by_cases hle : thr ≤ h.seq_score
  · rw [if_pos hle]
    show getQ (dext d.hits qH [h.seq_score]) q2 = _
    rw [getQ_dext]
    by_cases hq : q2 = qH
    · simp [hq, hle]
    · simp [hq]
  · rw [if_neg hle]
    simp [hle]

theorem decorateFlat_tips (thr : Rat) :
    ∀ (l : List (String × Hit)) (t : Forest),
      (∀ qh ∈ l, t.hasTip qh.2.subject = true) →
      ∃ u, decorateFlat thr t l = .ok u ∧
        u.shapeNames = t.shapeNames ∧
        (InternalHitsEmpty t → InternalHitsEmpty u) ∧
        (NDHits t → NDHits u) ∧
        ∀ nm q2, (u.tipData? nm).map (fun d => getQ d.hits q2) =
          (t.tipData? nm).map
            (fun d => getQ d.hits q2 ++ expHits l thr nm q2) := by
  intro l
  induction l with
  | nil =>
    intro t _
    refine ⟨t, rfl, rfl, id, id, fun nm q2 => ?_⟩
    cases ht : t.tipData? nm <;> simp [expHits]
  | cons qh rest ih =>
    intro t hsub
    obtain ⟨qH, h⟩ := qh
    have htip : t.hasTip h.subject = true :=
      hsub (qH, h) (List.mem_cons_self _ _)
    have hname : ∀ d : NodeData,
        ((fun d => if thr ≤ h.seq_score then addHit qH h.seq_score d else d)
          d).name = d.name := decorate_update_name thr qH h
    have hupd : (t.updTip h.subject
        (fun d => if thr ≤ h.seq_score then
          addHit qH h.seq_score d else d)).isSome := by
      rw [updTip_isSome]
      exact htip
    obtain ⟨t2, ht2⟩ := Option.isSome_iff_exists.mp hupd
    have hfa : t.findAndUpd h.subject
        (fun d => if thr ≤ h.seq_score then addHit qH h.seq_score d else d) =
          some t2 := by
      rw [Forest.findAndUpd, ht2]
    have hstep : decorateFlat thr t ((qH, h) :: rest) =
        decorateFlat thr t2 rest := by
      rw [decorateFlat, hfa]
    have hshape : t2.shapeNames = t.shapeNames :=
      updTip_shapeNames h.subject _ hname t t2 ht2
    have hrest : ∀ qh2 ∈ rest, t2.hasTip qh2.2.subject = true := by
      intro qh2 hm
      rw [hasTip_congr t2 t hshape]
      exact hsub qh2 (List.mem_cons_of_mem _ hm)
    obtain ⟨u, hu, hushape, huie, hund, hutip⟩ := ih t2 hrest
    refine ⟨u, by rw [hstep]; exact hu, hushape.trans hshape, ?_, ?_, ?_⟩
    · intro hie
      exact huie (updTip_internalEmpty h.subject _ hname t t2 ht2 hie)
    · intro hnd
      refine hund (updTip_ndHits h.subject _ ?_ t t2 ht2 hnd)
      intro d hd
      by_cases hle : thr ≤ h.seq_score
      · simpa [addHit, hle] using nodup_keys_dext d.hits qH [h.seq_score] hd
      · simpa [hle] using hd
    · intro nm q2
      rw [hutip nm q2]
      by_cases hnm : nm = h.subject
      · subst hnm
        rw [updTip_tipData_self h.subject _ hname t t2 ht2, Option.map_map]
        cases htd : t.tipData? h.subject with
        | none => rfl
        | some d0 =>
          simp only [Option.map_some']
          congr 1
          show getQ ((if thr ≤ h.seq_score then
              addHit qH h.seq_score d0 else d0).hits) q2 ++
            expHits rest thr h.subject q2 = _
          rw [getQ_update, expHits_cons, List.append_assoc]
          congr 1
          by_cases hq : q2 = qH
          · by_cases hle : thr ≤ h.seq_score
            · rw [if_pos ⟨hq, hle⟩, if_pos ⟨hq.symm, rfl, hle⟩]
            · rw [if_neg (fun hx => hle hx.2),
                if_neg (fun hx => hle hx.2.2)]
          · rw [if_neg (fun hx => hq hx.1),
              if_neg (fun hx => hq hx.1.symm)]
      · rw [updTip_tipData_other h.subject nm hnm _ hname t t2 ht2]
        cases htd : t.tipData? nm with
        | none => rfl
        | some d0 =>
          simp only [Option.map_some']
          congr 1
          rw [expHits_cons]
          have hno : ¬(qH = q2 ∧ h.subject = nm ∧ thr ≤ h.seq_score) :=
            fun hx => hnm hx.2.1.symm
          rw [if_neg hno]
          simp

end DecorateMain

/-- Claim C4 counterexample: a hit whose subject names the internal root
of `(a,b)c` is appended to that internal node by `decorate` (skbio
`find` also matches internal nodes), so internal nodes do not all stay
empty: the root of the decorated tree is internal and carries
`hits = [("q", [5])]`. -/
theorem decorate_internal_hits :
    decorate tC hitsInternal 0 = .ok uC ∧
      allSeqScores uC = [("q", [5])] ∧ uC.rootIsTip = false :=
  ⟨rfl, rfl, rfl⟩

/-- Claim C4 (amended): when every subject of the stream names a tip,
`decorate` succeeds, every internal node keeps an empty `hits`, every
node keeps distinct query keys, and the tip `find` locates for a name
carries, for each query, exactly the passing scores (`seq_score >=
threshold`) of the hits addressed to it, in input order, starting from
empty. -/
theorem decorate_spec (t : Forest) (hits : List (String × List Hit))
    (thr : Rat)
    (hsub : ∀ p ∈ hits, ∀ h ∈ p.2, t.hasTip h.subject = true) :
    ∃ u, decorate t hits thr = .ok u ∧
      Forest.InternalHitsEmpty u ∧ Forest.NDHits u ∧
      ∀ nm q, (u.tipData? nm).map (fun d => getQ d.hits q) =
        (t.tipData? nm).map (fun _ => expectedTip hits thr nm q) := by
  have hsubf : ∀ qh ∈ flatHits hits,
      t.clearHits.hasTip qh.2.subject = true := by
    intro qh hm
    obtain ⟨p, hp, h2, hh, rfl⟩ := (mem_flatHits hits qh).mp hm
    rw [hasTip_congr t.clearHits t (shapeNames_clearHits t)]
    exact hsub p hp h2 hh
  obtain ⟨u, hu, hushape, huie, hund, hutip⟩ :=
    decorateFlat_tips thr (flatHits hits) t.clearHits hsubf
  refine ⟨u, ?_, huie (internalEmpty_clearHits t),
    hund (ndHits_clearHits t), ?_⟩
  · rw [decorate, decorateAll_eq_flat]
    exact hu
  · intro nm q
    rw [hutip nm q, tipData_clearHits, Option.map_map]
    cases htd : t.tipData? nm with
    | none => rfl
    | some d0 => simp [expectedTip, getQ]

/-- Witness for `decorate_spec` on the two-tip tree `wT` with one passing
and one below-threshold hit. -/
theorem decorate_spec_witness :
    (∀ p ∈ wHits, ∀ h ∈ p.2, wT.hasTip h.subject = true) ∧
      ∃ u, decorate wT wHits 2 = .ok u ∧
        Forest.InternalHitsEmpty u ∧ Forest.NDHits u ∧
        ∀ nm q, (u.tipData? nm).map (fun d => getQ d.hits q) =
          (wT.tipData? nm).map (fun _ => expectedTip wHits 2 nm q) :=
  ⟨by decide, decorate_spec wT wHits 2 (by decide)⟩

section PropagateLemmas

open Forest

theorem getQ_foldl_dext (q : String) :
    ∀ (L m : List (String × List Rat)),
      getQ (L.foldl (fun acc p => dext acc p.1 p.2) m) q =
        getQ m q ++ (L.filter (fun p => p.1 == q)).flatMap Prod.snd := by
  intro L
  induction L with
  | nil => intro m; simp
  | cons p L ih =>
    intro m
    rw [List.foldl_cons, ih, getQ_dext, List.filter_cons]
    by_cases hp : p.1 = q
    · have hb : (p.1 == q) = true := beq_iff_eq.mpr hp
      rw [if_pos hb, if_pos hp.symm, List.flatMap_cons, List.append_assoc]
    · have hb : ¬(p.1 == q) = true := by simpa using hp
      rw [if_neg hb, if_neg (fun hc => hp hc.symm)]
      simp

theorem filter_flatMap_eq_getQ (q : String) :
    ∀ L : List (String × List Rat), (L.map Prod.fst).Nodup →
      (L.filter (fun p => p.1 == q)).flatMap Prod.snd = getQ L q := by
  intro L
  induction L with
  | nil => intro _; rfl
  | cons kv L ih =>
    obtain ⟨k, v⟩ := kv
    intro hnd
    rw [List.map_cons, List.nodup_cons] at hnd
    obtain ⟨hk, hnd⟩ := hnd
    rw [List.filter_cons]
    unfold getQ
    rw [lookup_cons_eq]
    by_cases hkq : k = q
    · subst hkq
      have hb : ((k, v).1 == k) = true := by simp
      rw [if_pos hb, if_pos rfl, List.flatMap_cons]
      have hfe : L.filter (fun p => p.1 == k) = [] := by
        rw [List.filter_eq_nil_iff]
        intro p hp
        simp only [beq_iff_eq]
        intro hpk
        exact hk (List.mem_map.mpr ⟨p, hp, hpk⟩)
      rw [hfe]
      simp
    · have hb : ¬((k, v).1 == q) = true := by simpa using hkq
      rw [if_neg hb, if_neg (fun hc => hkq hc.symm), ih hnd]
      rfl

theorem getQ_extendChildren (q : String) :
    ∀ (f : Forest) (m : List (String × List Rat)), NDHits f →
      getQ (extendChildren m f) q = getQ m q ++ rootsCat q f := by
  intro f
  induction f with
  | nil => intro m _; simp [extendChildren, rootsCat]
  | node cd cc cs ihc ihs =>
    intro m hnd
    obtain ⟨hd, _, hns⟩ := hnd
    rw [extendChildren, ihs _ hns, getQ_foldl_dext,
      filter_flatMap_eq_getQ q cd.hits hd, rootsCat, List.append_assoc]

theorem propagate_isNil (t : Forest) : t.propagate.isNil = t.isNil := by
  cases t <;> simp [propagate, isNil]

theorem nodup_foldl_dext :
    ∀ (L m : List (String × List Rat)), (m.map Prod.fst).Nodup →
      (((L.foldl (fun acc p => dext acc p.1 p.2) m)).map Prod.fst).Nodup := by
  intro L
  induction L with
  | nil => intro m h; simpa
  | cons p L ih =>
    intro m h
    rw [List.foldl_cons]
    exact ih _ (nodup_keys_dext m p.1 p.2 h)

theorem ndHits_extendChildren (f : Forest) :
    ∀ m : List (String × List Rat), (m.map Prod.fst).Nodup →
      ((extendChildren m f).map Prod.fst).Nodup := by
  induction f with
  | nil => intro m h; simpa [extendChildren]
  | node cd cc cs ihc ihs =>
    intro m h
    rw [extendChildren]
    exact ihs _ (nodup_foldl_dext cd.hits m h)

theorem ndHits_propagate : ∀ t : Forest, NDHits t → NDHits t.propagate := by
  intro t
  induction t with
  | nil => intro h; trivial
  | node d c s ihc ihs =>
    intro h
    obtain ⟨hd, hc, hs⟩ := h
    rw [propagate]
    by_cases hnil : c.isNil = true
    · rw [if_pos hnil]
      exact ⟨hd, ihc hc, ihs hs⟩
    · rw [if_neg hnil]
      exact ⟨ndHits_extendChildren c.propagate d.hits hd, ihc hc, ihs hs⟩

theorem sumOK_propagate (q : String) :
    ∀ t : Forest, InternalHitsEmpty t → NDHits t → SumOK q t.propagate := by
  intro t
  induction t with
  | nil => intro _ _; trivial
  | node d c s ihc ihs =>
    intro hie hnd
    obtain ⟨hd, hic, his⟩ := hie
    obtain ⟨_, hnc, hns⟩ := hnd
    rw [propagate]
    by_cases hnil : c.isNil = true
    · rw [if_pos hnil]
      exact ⟨Or.inl (by rw [propagate_isNil]; exact hnil),
        ihc hic hnc, ihs his hns⟩
    · rw [if_neg hnil]
      refine ⟨Or.inr ?_, ihc hic hnc, ihs his hns⟩
      have hde : d.hits = [] := by
        cases hd with
        | inl h => exact absurd h hnil
        | inr h => exact h
      show getQ (extendChildren d.hits c.propagate) q = rootsCat q c.propagate
      rw [getQ_extendChildren q c.propagate d.hits (ndHits_propagate c hnc),
        hde]
      rfl

theorem sumOK_agg (q : String) :
    ∀ f : Forest, SumOK q f →
      AggOK q f ∧ rootsCat q f = tipsCat q f := by
  intro f
  induction f with
  | nil => intro _; exact ⟨trivial, rfl⟩
  | node d c s ihc ihs =>
    intro h
    obtain ⟨hd, hc, hs⟩ := h
    obtain ⟨hac, hrc⟩ := ihc hc
    obtain ⟨has, hrs⟩ := ihs hs
    by_cases hnil : c.isNil = true
    · refine ⟨⟨by rw [if_pos hnil], hac, has⟩, ?_⟩
      rw [rootsCat, tipsCat, if_pos hnil, hrs]
    · have hsum : getQ d.hits q = rootsCat q c := by
        cases hd with
        | inl h2 => exact absurd h2 hnil
        | inr h2 => exact h2
      refine ⟨⟨?_, hac, has⟩, ?_⟩
      · rw [if_neg hnil, hsum, hrc]
      · rw [rootsCat, tipsCat, if_neg hnil, hrs, hsum, hrc]

theorem shapeNames_isTree (t : Forest) : t.shapeNames.isTree = t.isTree := by
  cases t with
  | nil => rfl
  | node d c s => cases s <;> simp [shapeNames, isTree]

theorem isTree_congr (t1 t2 : Forest)
    (h : t1.shapeNames = t2.shapeNames) : t1.isTree = t2.isTree := by
  rw [← shapeNames_isTree t1, ← shapeNames_isTree t2, h]

end PropagateLemmas

/-- Claim C1 counterexample: on `(a,b)c` with a passing hit whose subject
is the internal root `c`, after `decorate` and `propagate` the root
carries `hits = {q: [5]}` while the union of `hits[q]` over its
descendant tips is empty, so the aggregation claim fails for arbitrary
hit streams. -/
theorem propagate_internal_counterexample :
    decorate tC hitsInternal 0 = .ok uC ∧
      getQ (allSeqScores uC.propagate) "q" = [5] ∧
      Forest.tipsCat "q" uC.propagate = [] :=
  ⟨rfl, rfl, rfl⟩

/-- Claim C1 (amended): when every hit subject names a tip and
decoration succeeds, after `propagate` every node carries, as a
multiset, exactly the union of `hits[Q]` over its descendant tips for
every query (so in particular it is empty for queries with no hits among
those tips), and the root carries the union over all tips of the
tree. -/
theorem propagate_agg_spec (t : Forest) (hits : List (String × List Hit))
    (thr : Rat) (u : Forest) (ht : t.isTree = true)
    (hsub : ∀ p ∈ hits, ∀ h ∈ p.2, t.hasTip h.subject = true)
    (hu : decorate t hits thr = .ok u) :
    (∀ q, Forest.AggOK q u.propagate) ∧
    (∀ q, Multiset.ofList (getQ (allSeqScores u.propagate) q) =
      Multiset.ofList (Forest.tipsCat q u.propagate)) := by
  have hsubf : ∀ qh ∈ flatHits hits,
      t.clearHits.hasTip qh.2.subject = true := by
    intro qh hm
    obtain ⟨p, hp, h2, hh, rfl⟩ := (mem_flatHits hits qh).mp hm
    rw [hasTip_congr t.clearHits t (shapeNames_clearHits t)]
    exact hsub p hp h2 hh
  obtain ⟨u2, hu2, hushape, huie, hund, _⟩ :=
    decorateFlat_tips thr (flatHits hits) t.clearHits hsubf
  rw [decorate, decorateAll_eq_flat, hu2] at hu
  injection hu with hinj
  subst hinj
  have hie : u2.InternalHitsEmpty := huie (internalEmpty_clearHits t)
  have hnd : u2.NDHits := hund (ndHits_clearHits t)
  have htree : u2.isTree = true := by
    rw [isTree_congr u2 t (hushape.trans (shapeNames_clearHits t))]
    exact ht
  constructor
  · intro q
    exact (sumOK_agg q u2.propagate (sumOK_propagate q u2 hie hnd)).1
  · intro q
    have hsum : Forest.SumOK q u2.propagate := sumOK_propagate q u2 hie hnd
    cases hup : u2.propagate with
    | nil => simp [allSeqScores, Forest.tipsCat, getQ]
    | node d c s =>
      have hs : s = .nil := by
        cases hu2s : u2 with
        | nil => rw [hu2s] at hup; cases hup
        | node d2 c2 s2 =>
          cases hs2 : s2 with
          | node _ _ _ =>
            rw [hu2s, hs2] at htree
            simp [Forest.isTree] at htree
          | nil =>
            rw [hu2s, hs2] at hup
            rw [Forest.propagate] at hup
            cases hup
            rfl
      subst hs
      rw [hup] at hsum
      obtain ⟨hd, hc, _⟩ := hsum
      rw [allSeqScores, Forest.tipsCat, Forest.tipsCat]
      by_cases hnil : c.isNil = true
      · rw [if_pos hnil]
        simp
      · have hsum2 : getQ d.hits q = Forest.rootsCat q c := by
          cases hd with
          | inl h2 => exact absurd h2 hnil
          | inr h2 => exact h2
        rw [if_neg hnil, hsum2, (sumOK_agg q c hc).2]
        simp

/-- Witness for `propagate_agg_spec` on the two-tip tree `wT`. -/
theorem propagate_agg_spec_witness :
    (wT.isTree = true ∧ decorate wT wHits 2 = .ok wUdec) ∧
      Forest.AggOK "q1" wUdec.propagate :=
  ⟨⟨rfl, rfl⟩,
    (propagate_agg_spec wT wHits 2 wUdec rfl (by decide) rfl).1 "q1"⟩

section FrameLemmas

open Forest

theorem eraseTopo_isNil (t : Forest) : t.eraseTopo.isNil = t.isNil := by
  cases t <;> simp [eraseTopo, isNil]

theorem minMtd_eraseRd (f : Forest) : f.eraseRd.minMtd = f.minMtd := by
  induction f with
  | nil => rfl
  | node d c s ihc ihs =>
    cases s with
    | nil => simp [eraseRd, minMtd]
    | node e c2 s2 => simp [eraseRd, minMtd, ← ihs]

theorem eraseTopo_setMtd (t : Forest) : t.setMtd.eraseTopo = t.eraseTopo := by
  induction t with
  | nil => rfl
  | node d c s ihc ihs => simp [setMtd, eraseTopo, ihc, ihs]

theorem eraseTopo_setRd : ∀ (t : Forest) (r : Nat),
    (t.setRd r).eraseTopo = t.eraseTopo := by
  intro t
  induction t with
  | nil => intro r; rfl
  | node d c s ihc ihs =>
    intro r
    simp [setRd, eraseTopo, ihc, ihs]

theorem setMtd_congr : ∀ t1 t2 : Forest, t1.eraseTopo = t2.eraseTopo →
    t1.setMtd.eraseRd = t2.setMtd.eraseRd := by
  intro t1
  induction t1 with
  | nil =>
    intro t2 h
    cases t2 with
    | nil => rfl
    | node d c s => simp [eraseTopo] at h
  | node d1 c1 s1 ihc ihs =>
    intro t2 h
    cases t2 with
    | nil => simp [eraseTopo] at h
    | node d2 c2 s2 =>
      rw [eraseTopo, eraseTopo] at h
      injection h with hd hc hs
      have hnil : c1.isNil = c2.isNil := by
        rw [← eraseTopo_isNil c1, ← eraseTopo_isNil c2, hc]
      have hmc : c1.setMtd.eraseRd = c2.setMtd.eraseRd := ihc c2 hc
      have hms : s1.setMtd.eraseRd = s2.setMtd.eraseRd := ihs s2 hs
      have hmin : c1.setMtd.minMtd = c2.setMtd.minMtd := by
        rw [← minMtd_eraseRd c1.setMtd, ← minMtd_eraseRd c2.setMtd, hmc]
      rw [setMtd, setMtd, eraseRd, eraseRd]
      cases d1 with
      | mk n1 l1 h1 sc1 nt1 m1 r1 =>
        cases d2 with
        | mk n2 l2 h2 sc2 nt2 m2 r2 =>
          simp only [NodeData.mk.injEq] at hd
          obtain ⟨e1, e2, e3, e4, e5, -, -⟩ := hd
          subst e1
          subst e2
          subst e3
          subst e4
          subst e5
          rw [hmc, hms, hnil, hmin]

theorem setRd_congr : ∀ (t1 t2 : Forest) (r : Nat),
    t1.eraseRd = t2.eraseRd → t1.setRd r = t2.setRd r := by
  intro t1
  induction t1 with
  | nil =>
    intro t2 r h
    cases t2 with
    | nil => rfl
    | node d c s => simp [eraseRd] at h
  | node d1 c1 s1 ihc ihs =>
    intro t2 r h
    cases t2 with
    | nil => simp [eraseRd] at h
    | node d2 c2 s2 =>
      rw [eraseRd, eraseRd] at h
      injection h with hd hc hs
      rw [setRd, setRd]
      cases d1 with
      | mk n1 l1 h1 sc1 nt1 m1 r1 =>
        cases d2 with
        | mk n2 l2 h2 sc2 nt2 m2 r2 =>
          simp only [NodeData.mk.injEq] at hd
          obtain ⟨e1, e2, e3, e4, e5, e6, -⟩ := hd
          subst e1
          subst e2
          subst e3
          subst e4
          subst e5
          subst e6
          rw [ihc c2 (r + 1) hc, ihs s2 r hs]

theorem bestTree_congr (t1 t2 : Forest) (h : t1.eraseTopo = t2.eraseTopo) :
    bestTree t1 = bestTree t2 := by
  show t1.setMtd.setRd 0 = t2.setMtd.setRd 0
  exact setRd_congr t1.setMtd t2.setMtd 0 (setMtd_congr t1 t2 h)

end FrameLemmas

/-- Claim C10: `best` recomputes both topology metrics on its input tree
before scanning (the post-call tree satisfies `MtdOK` and `RdOK 0`), it
changes nothing else — the post-call tree erased of the two metrics is
the input erased of them (same topology, `name`, `length`, `hits`,
`scores`, `ntips` everywhere) — and its result does not depend on the
metric values stored in the input tree. -/
theorem best_frame_spec (t : Forest) (bf : BattleFn) :
    Forest.MtdOK (bestTree t) ∧ Forest.RdOK 0 (bestTree t) ∧
      (bestTree t).eraseTopo = t.eraseTopo ∧
      ∀ t2 : Forest, t2.eraseTopo = t.eraseTopo → best t2 bf = best t bf := by
  refine ⟨mtdOK_setRd _ 0 (mtdOK_setMtd t), rdOK_setRd _ 0, ?_, ?_⟩
  · show (t.setMtd.setRd 0).eraseTopo = t.eraseTopo
    rw [eraseTopo_setRd, eraseTopo_setMtd]
  · intro t2 h
    unfold best
    rw [bestTree_congr t2 t h]

/-- Witness for `best_frame_spec`: `wT2` is `wT` with garbage metrics,
and `best` answers the same on both. -/
theorem best_frame_spec_witness :
    wT2.eraseTopo = wT.eraseTopo ∧
      best wT2 defaultBattle = best wT defaultBattle :=
  ⟨rfl, (best_frame_spec wT defaultBattle).2.2.2 wT2 rfl⟩

section ThresholdLemmas

open Forest

theorem hitsRel_isNil (p : Rat → Bool) :
    ∀ t1 t2 : Forest, HitsRel p t1 t2 → t2.isNil = t1.isNil := by
  intro t1 t2 h
  cases t1 with
  | nil => cases t2 with
    | nil => rfl
    | node d c s => exact absurd h (by simp [HitsRel])
  | node d c s => cases t2 with
    | nil => exact absurd h (by simp [HitsRel])
    | node d2 c2 s2 => rfl

theorem updTip_rel (p : Rat → Bool) (nm : String)
    (f1 f2 : NodeData → NodeData)
    (hrel : ∀ d1 d2 : NodeData, d2.name = d1.name →
      (∀ q, getQ d2.hits q = (getQ d1.hits q).filter p) →
      (f2 d2).name = (f1 d1).name ∧
        ∀ q, getQ (f2 d2).hits q = (getQ (f1 d1).hits q).filter p) :
    ∀ t1 t2 : Forest, HitsRel p t1 t2 →
      (t1.updTip nm f1 = none ∧ t2.updTip nm f2 = none) ∨
      (∃ u1 u2, t1.updTip nm f1 = some u1 ∧ t2.updTip nm f2 = some u2 ∧
        HitsRel p u1 u2) := by
  intro t1
  induction t1 with
  | nil =>
    intro t2 h
    cases t2 with
    | nil => exact Or.inl ⟨rfl, rfl⟩
    | node d c s => exact absurd h (by simp [HitsRel])
  | node d1 c1 s1 ihc ihs =>
    intro t2 h
    cases t2 with
    | nil => exact absurd h (by simp [HitsRel])
    | node d2 c2 s2 =>
      obtain ⟨hname, hhits, hc, hs⟩ := h
      cases ihc c2 hc with
      | inr hsome =>
        obtain ⟨c1u, c2u, hc1u, hc2u, hcu⟩ := hsome
        refine Or.inr ⟨.node d1 c1u s1, .node d2 c2u s2, ?_, ?_, ?_⟩
        · rw [updTip, hc1u]
        · rw [updTip, hc2u]
        · exact ⟨hname, hhits, hcu, hs⟩
      | inl hnone =>
        obtain ⟨hc1n, hc2n⟩ := hnone
        have hnil : c2.isNil = c1.isNil := hitsRel_isNil p c1 c2 hc
        by_cases hcond : c1.isNil = true ∧ d1.name = some nm
        · have hcond2 : c2.isNil = true ∧ d2.name = some nm :=
            ⟨by rw [hnil]; exact hcond.1, by rw [hname]; exact hcond.2⟩
          refine Or.inr ⟨.node (f1 d1) c1 s1, .node (f2 d2) c2 s2, ?_, ?_, ?_⟩
          · rw [updTip, hc1n, if_pos hcond]
          · rw [updTip, hc2n, if_pos hcond2]
          · obtain ⟨hn2, hh2⟩ := hrel d1 d2 hname hhits
            exact ⟨hn2, hh2, hc, hs⟩
        · have hcond2 : ¬(c2.isNil = true ∧ d2.name = some nm) := by
            intro hx
            exact hcond ⟨by rw [← hnil]; exact hx.1, by rw [← hname]; exact hx.2⟩
          cases ihs s2 hs with
          | inr hsome =>
            obtain ⟨s1u, s2u, hs1u, hs2u, hsu⟩ := hsome
            refine Or.inr ⟨.node d1 c1 s1u, .node d2 c2 s2u, ?_, ?_, ?_⟩
            · rw [updTip, hc1n, if_neg hcond, hs1u]
            · rw [updTip, hc2n, if_neg hcond2, hs2u]
            · exact ⟨hname, hhits, hc, hsu⟩
          | inl hnone2 =>
            obtain ⟨hs1n, hs2n⟩ := hnone2
            refine Or.inl ⟨?_, ?_⟩
            · rw [updTip, hc1n, if_neg hcond, hs1n]
            · rw [updTip, hc2n, if_neg hcond2, hs2n]

theorem updNonTip_rel (p : Rat → Bool) (nm : String)
    (f1 f2 : NodeData → NodeData)
    (hrel : ∀ d1 d2 : NodeData, d2.name = d1.name →
      (∀ q, getQ d2.hits q = (getQ d1.hits q).filter p) →
      (f2 d2).name = (f1 d1).name ∧
        ∀ q, getQ (f2 d2).hits q = (getQ (f1 d1).hits q).filter p) :
    ∀ t1 t2 : Forest, HitsRel p t1 t2 →
      (t1.updNonTip nm f1 = none ∧ t2.updNonTip nm f2 = none) ∨
      (∃ u1 u2, t1.updNonTip nm f1 = some u1 ∧
        t2.updNonTip nm f2 = some u2 ∧ HitsRel p u1 u2) := by
  intro t1
  induction t1 with
  | nil =>
    intro t2 h
    cases t2 with
    | nil => exact Or.inl ⟨rfl, rfl⟩
    | node d c s => exact absurd h (by simp [HitsRel])
  | node d1 c1 s1 ihc ihs =>
    intro t2 h
    cases t2 with
    | nil => exact absurd h (by simp [HitsRel])
    | node d2 c2 s2 =>
      obtain ⟨hname, hhits, hc, hs⟩ := h
      cases ihc c2 hc with
      | inr hsome =>
        obtain ⟨c1u, c2u, hc1u, hc2u, hcu⟩ := hsome
        refine Or.inr ⟨.node d1 c1u s1, .node d2 c2u s2, ?_, ?_, ?_⟩
        · rw [updNonTip, hc1u]
        · rw [updNonTip, hc2u]
        · exact ⟨hname, hhits, hcu, hs⟩
      | inl hnone =>
        obtain ⟨hc1n, hc2n⟩ := hnone
        have hnil : c2.isNil = c1.isNil := hitsRel_isNil p c1 c2 hc
        by_cases hcond : ¬c1.isNil = true ∧ d1.name = some nm
        · have hcond2 : ¬c2.isNil = true ∧ d2.name = some nm :=
            ⟨by rw [hnil]; exact hcond.1, by rw [hname]; exact hcond.2⟩
          refine Or.inr ⟨.node (f1 d1) c1 s1, .node (f2 d2) c2 s2, ?_, ?_, ?_⟩
          · rw [updNonTip, hc1n, if_pos hcond]
          · rw [updNonTip, hc2n, if_pos hcond2]
          · obtain ⟨hn2, hh2⟩ := hrel d1 d2 hname hhits
            exact ⟨hn2, hh2, hc, hs⟩
        · have hcond2 : ¬(¬c2.isNil = true ∧ d2.name = some nm) := by
            intro hx
            exact hcond ⟨by rw [← hnil]; exact hx.1, by rw [← hname]; exact hx.2⟩
          cases ihs s2 hs with
          | inr hsome =>
            obtain ⟨s1u, s2u, hs1u, hs2u, hsu⟩ := hsome
            refine Or.inr ⟨.node d1 c1 s1u, .node d2 c2 s2u, ?_, ?_, ?_⟩
            · rw [updNonTip, hc1n, if_neg hcond, hs1u]
            · rw [updNonTip, hc2n, if_neg hcond2, hs2u]
            · exact ⟨hname, hhits, hc, hsu⟩
          | inl hnone2 =>
            obtain ⟨hs1n, hs2n⟩ := hnone2
            refine Or.inl ⟨?_, ?_⟩
            · rw [updNonTip, hc1n, if_neg hcond, hs1n]
            · rw [updNonTip, hc2n, if_neg hcond2, hs2n]

theorem findAndUpd_rel (p : Rat → Bool) (nm : String)
    (f1 f2 : NodeData → NodeData)
    (hrel : ∀ d1 d2 : NodeData, d2.name = d1.name →
      (∀ q, getQ d2.hits q = (getQ d1.hits q).filter p) →
      (f2 d2).name = (f1 d1).name ∧
        ∀ q, getQ (f2 d2).hits q = (getQ (f1 d1).hits q).filter p)
    (t1 t2 : Forest) (h : HitsRel p t1 t2) :
    (t1.findAndUpd nm f1 = none ∧ t2.findAndUpd nm f2 = none) ∨
    (∃ u1 u2, t1.findAndUpd nm f1 = some u1 ∧
      t2.findAndUpd nm f2 = some u2 ∧ HitsRel p u1 u2) := by
  cases updTip_rel p nm f1 f2 hrel t1 t2 h with
  | inr hsome =>
    obtain ⟨u1, u2, h1, h2, hu⟩ := hsome
    exact Or.inr ⟨u1, u2, by rw [findAndUpd, h1], by rw [findAndUpd, h2], hu⟩
  | inl hnone =>
    obtain ⟨h1, h2⟩ := hnone
    cases updNonTip_rel p nm f1 f2 hrel t1 t2 h with
    | inr hsome =>
      obtain ⟨u1, u2, h1n, h2n, hu⟩ := hsome
      exact Or.inr ⟨u1, u2, by rw [findAndUpd, h1, h1n],
        by rw [findAndUpd, h2, h2n], hu⟩
    | inl hnone2 =>
      obtain ⟨h1n, h2n⟩ := hnone2
      exact Or.inl ⟨by rw [findAndUpd, h1, h1n], by rw [findAndUpd, h2, h2n]⟩

theorem decorate_update_rel (thr1 thr2 : Rat) (h12 : thr1 ≤ thr2)
    (qH : String) (h : Hit) :
    ∀ d1 d2 : NodeData, d2.name = d1.name →
      (∀ q, getQ d2.hits q =
        (getQ d1.hits q).filter (fun x => decide (thr2 ≤ x))) →
      ((if thr2 ≤ h.seq_score then addHit qH h.seq_score d2 else d2).name =
        (if thr1 ≤ h.seq_score then addHit qH h.seq_score d1 else d1).name) ∧
      ∀ q, getQ (if thr2 ≤ h.seq_score then
          addHit qH h.seq_score d2 else d2).hits q =
        (getQ (if thr1 ≤ h.seq_score then
          addHit qH h.seq_score d1 else d1).hits q).filter
            (fun x => decide (thr2 ≤ x)) := by
  intro d1 d2 hname hhits
  by_cases hle2 : thr2 ≤ h.seq_score
  · have hle1 : thr1 ≤ h.seq_score := le_trans h12 hle2
    rw [if_pos hle2, if_pos hle1]
    refine ⟨by simp [addHit, hname], fun q => ?_⟩
    show getQ (dext d2.hits qH [h.seq_score]) q =
      (getQ (dext d1.hits qH [h.seq_score]) q).filter _
    rw [getQ_dext, getQ_dext, List.filter_append, hhits q]
    congr 1
    by_cases hq : q = qH <;> simp [hq, hle2]
  · rw [if_neg hle2]
    by_cases hle1 : thr1 ≤ h.seq_score
    · rw [if_pos hle1]
      refine ⟨by simp [addHit, hname], fun q => ?_⟩
      show getQ d2.hits q = (getQ (dext d1.hits qH [h.seq_score]) q).filter _
      rw [getQ_dext, List.filter_append, hhits q]
      have : ((if q = qH then [h.seq_score] else []).filter
          (fun x => decide (thr2 ≤ x))) = [] := by
        by_cases hq : q = qH
        · simp [hq, hle2]
        · simp [hq]
      rw [this, List.append_nil]
    · rw [if_neg hle1]
      exact ⟨hname, hhits⟩

theorem decorateFlat_rel (thr1 thr2 : Rat) (h12 : thr1 ≤ thr2) :
    ∀ (l : List (String × Hit)) (t1 t2 : Forest),
      HitsRel (fun x => decide (thr2 ≤ x)) t1 t2 →
      (∃ e, decorateFlat thr1 t1 l = .error e ∧
        decorateFlat thr2 t2 l = .error e) ∨
      (∃ u1 u2, decorateFlat thr1 t1 l = .ok u1 ∧
        decorateFlat thr2 t2 l = .ok u2 ∧
        HitsRel (fun x => decide (thr2 ≤ x)) u1 u2) := by
  intro l
  induction l with
  | nil =>
    intro t1 t2 h
    exact Or.inr ⟨t1, t2, rfl, rfl, h⟩
  | cons qh rest ih =>
    intro t1 t2 h
    obtain ⟨qH, hh⟩ := qh
    cases findAndUpd_rel (fun x => decide (thr2 ≤ x)) hh.subject
        (fun d => if thr1 ≤ hh.seq_score then
          addHit qH hh.seq_score d else d)
        (fun d => if thr2 ≤ hh.seq_score then
          addHit qH hh.seq_score d else d)
        (decorate_update_rel thr1 thr2 h12 qH hh) t1 t2 h with
    | inl hnone =>
      obtain ⟨h1, h2⟩ := hnone
      refine Or.inl ⟨hh.subject, ?_, ?_⟩
      · rw [decorateFlat, h1]
      · rw [decorateFlat, h2]
    | inr hsome =>
      obtain ⟨v1, v2, h1, h2, hv⟩ := hsome
      have e1 : decorateFlat thr1 t1 ((qH, hh) :: rest) =
          decorateFlat thr1 v1 rest := by
        rw [decorateFlat, h1]
      have e2 : decorateFlat thr2 t2 ((qH, hh) :: rest) =
          decorateFlat thr2 v2 rest := by
        rw [decorateFlat, h2]
      rw [e1, e2]
      exact ih v1 v2 hv

theorem hitsRel_clearHits (p : Rat → Bool) (t : Forest) :
    Forest.HitsRel p t.clearHits t.clearHits := by
  induction t with
  | nil => trivial
  | node d c s ihc ihs =>
    exact ⟨rfl, fun q => by simp [getQ], ihc, ihs⟩

theorem hitsRel_hitsLE (p : Rat → Bool) :
    ∀ t1 t2 : Forest, Forest.HitsRel p t1 t2 → Forest.HitsLE t2 t1 := by
  intro t1
  induction t1 with
  | nil =>
    intro t2 h
    cases t2 with
    | nil => trivial
    | node d c s => exact absurd h (by simp [HitsRel])
  | node d1 c1 s1 ihc ihs =>
    intro t2 h
    cases t2 with
    | nil => exact absurd h (by simp [HitsRel])
    | node d2 c2 s2 =>
      obtain ⟨hname, hhits, hc, hs⟩ := h
      refine ⟨fun q => ?_, ihc c2 hc, ihs s2 hs⟩
      rw [hhits q]
      exact Multiset.coe_le.mpr (List.filter_sublist _).subperm

end ThresholdLemmas

/-- Claim C9: raising the decoration threshold from `thr1` to `thr2` on
the same tree and hit stream keeps decoration successful and leaves, at
every node, a `hits[Q]` that is a sub-multiset of (in particular never
larger than) the one obtained at `thr1`; indeed it is its filtering by
the higher threshold. -/
theorem decorate_threshold_mono (t : Forest)
    (hits : List (String × List Hit)) (thr1 thr2 : Rat)
    (h12 : thr1 ≤ thr2) (u1 : Forest)
    (h1 : decorate t hits thr1 = .ok u1) :
    ∃ u2, decorate t hits thr2 = .ok u2 ∧ Forest.HitsLE u2 u1 := by
  rw [decorate, decorateAll_eq_flat] at h1
  cases decorateFlat_rel thr1 thr2 h12 (flatHits hits) t.clearHits
      t.clearHits
      (hitsRel_clearHits (fun x => decide (thr2 ≤ x)) t) with
  | inl herr =>
    obtain ⟨e, he1, _⟩ := herr
    rw [h1] at he1
    cases he1
  | inr hok =>
    obtain ⟨v1, v2, hv1, hv2, hrel⟩ := hok
    rw [h1] at hv1
    injection hv1 with hv1
    subst hv1
    refine ⟨v2, ?_, hitsRel_hitsLE _ u1 v2 hrel⟩
    rw [decorate, decorateAll_eq_flat]
    exact hv2

/-- Witness for `decorate_threshold_mono`: thresholds 0 and 2 on the
two-tip tree `wT`. -/
theorem decorate_threshold_mono_witness :
    ((0 : Rat) ≤ 2 ∧ decorate wT wHits 0 = .ok wUdec0) ∧
      ∃ u2, decorate wT wHits 2 = .ok u2 ∧ Forest.HitsLE u2 wUdec0 :=
  ⟨⟨by norm_num, rfl⟩,
    decorate_threshold_mono wT wHits 0 2 (by norm_num) wUdec0 rfl⟩

end Insertster
